import Mathlib

/-! FancyCrack: the candidate search engine.

A shallow embedding of `worker.js` (the search loops `runDictionary` and
`runBruteforce`, the digest adapter and the message handler) and of the parts
of `app.js` that prepare a run (target normalisation and
`estimateTotalRange`), followed by theorems about them.

Conventions of the embedding.

* A JavaScript string is the list of its UTF-16 code units.
* `crypto.subtle.digest` applied to the UTF-8 encoding of a string is an
  oracle of the environment; it either yields the digest bytes or rejects.
* The module variable `cancelRequested` is written by `cancel` messages that
  are handled while a run is suspended in an `await`.  A run reads it once per
  candidate, just before the digest; the environment supplies the value read
  at the check that is made when `tried` candidates have been processed.
* `self.postMessage` appends to the list of events of the run.  The field
  `batchPerSecond` of a progress message is a floating-point rate computed
  from `performance.now()`; it is not recorded.  The throttle
  (`delayPerAttemptMs`) only affects timing and is not recorded either.
* `while (true)` is bounded by a fuel argument; running out of fuel is `none`.
-/

namespace FancyCrack

/-! ## Data model -/

/-- A JavaScript string, as the list of its UTF-16 code units. -/
abbrev JsString := List Nat

/-- A value thrown by the digest: `message` is `err.message` and `asString`
is `String(err)`. -/
structure JsError where
  message : JsString
  asString : JsString
deriving DecidableEq, Repr

/-- The messages a worker posts to its host. -/
inductive Event where
  | attempt (candidate : JsString) (tried : Nat)
  | progress (tried : Nat) (recent : List JsString)
  | result (found : Bool) (plaintext : Option JsString) (tried : Nat)
  | error (message : JsString)
deriving DecidableEq, Repr

/-- What surrounds a run: the digest primitive and the reads of the cancel flag. -/
structure Env where
  subtleDigest : JsString → JsString → Except JsError (List Nat)
  cancelRequested : Nat → Bool

/-- The per-run counters: `tried` and the module variable `recentRing`. -/
structure SearchState where
  tried : Nat
  recentRing : List JsString
deriving DecidableEq, Repr

/-- How one pass through a loop body ends. -/
inductive Flow where
  | next (st : SearchState)
  | ret
  | throw (err : JsError)
deriving DecidableEq, Repr

/-- How an async function call ends. -/
inductive Completion where
  | returned
  | threw (err : JsError)
deriving DecidableEq, Repr

/-- The observable behaviour of a call: the events posted and how it ended. -/
structure Run where
  events : List Event
  completion : Completion
deriving DecidableEq, Repr

/-! ## Strings and the digest adapter -/

/-- Lower-casing of one code unit: `A`..`Z` go to `a`..`z`.  Exact for ASCII. -/
def toLowerCaseUnit (u : Nat) : Nat :=
  if 65 ≤ u ∧ u ≤ 90 then u + 32 else u

/-- The method `String.prototype.toLowerCase`, exact on strings of ASCII code units. -/
def toLowerCase (s : JsString) : JsString :=
  s.map toLowerCaseUnit

/-- The code units ECMAScript counts as white space or line terminators. -/
def isWhiteSpace (u : Nat) : Bool :=
  u = 9 || u = 10 || u = 11 || u = 12 || u = 13 || u = 32 || u = 160 || u = 5760
    || (8192 ≤ u && u ≤ 8202) || u = 8232 || u = 8233 || u = 8239 || u = 8287
    || u = 12288 || u = 65279

/-- The method `String.prototype.trim`. -/
def trim (s : JsString) : JsString :=
  ((s.dropWhile isWhiteSpace).reverse.dropWhile isWhiteSpace).reverse

/-- The expression `n.toString(16)` for a non-negative integer. -/
def toString16 (n : Nat) : JsString :=
  (Nat.toDigits 16 n).map Char.toNat

/-- The expression `s.padStart(2, '0')`. -/
def padStart2 (s : JsString) : JsString :=
  List.replicate (2 - s.length) 48 ++ s

/-- The function `bufferToHex`: two hex digits per byte, appended left to right. -/
def bufferToHex (bytes : List Nat) : JsString :=
  bytes.foldl (fun hex b => hex ++ padStart2 (toString16 b)) []

/-- The function `digestStringHex` of `worker.js`. -/
def digestStringHex (env : Env) (algorithm input : JsString) : Except JsError JsString :=
  match env.subtleDigest algorithm input with
  | .error err => .error err
  | .ok digest => .ok (toLowerCase (bufferToHex digest))

/-! ## The search loops of `worker.js` -/

/-- The constant `RECENT_LIMIT`. -/
def RECENT_LIMIT : Nat := 50

/-- The function `trackRecent`: push, then drop from the front whatever exceeds the limit. -/
def trackRecent (recentRing : List JsString) (candidate : JsString) : List JsString :=
  let ring := recentRing ++ [candidate]
  if ring.length > RECENT_LIMIT then ring.drop (ring.length - RECENT_LIMIT) else ring

/-- The body shared by both loops (lines 39-58 and 75-95): cancel check,
digest, count, attempt event, match check, batch report. -/
def attemptBody (env : Env) (algorithm targetHex : JsString) (batchSize : Nat)
    (candidate : JsString) (st : SearchState) : List Event × Flow :=
  if env.cancelRequested st.tried then ([], .ret)
  else
    match digestStringHex env algorithm candidate with
    | .error err => ([], .throw err)
    | .ok digestHex =>
      let tried := st.tried + 1
      let ring := trackRecent st.recentRing candidate
      if digestHex = targetHex then
        ([.attempt candidate tried, .result true (some candidate) tried], .ret)
      else if tried % batchSize = 0 then
        ([.attempt candidate tried,
          .progress tried (ring.drop (ring.length - RECENT_LIMIT))], .next ⟨tried, ring⟩)
      else
        ([.attempt candidate tried], .next ⟨tried, ring⟩)

/-- The `for` loop over `candidates` of `runDictionary`, with the batch size
as a parameter. -/
def candidateLoop (env : Env) (algorithm targetHex : JsString) (batchSize : Nat) :
    List JsString → SearchState → List Event × Flow
  | [], st => ([], .next st)
  | candidate :: rest, st =>
    match attemptBody env algorithm targetHex batchSize candidate st with
    | (evs, .next st') =>
      let r := candidateLoop env algorithm targetHex batchSize rest st'
      (evs ++ r.1, r.2)
    | (evs, flow) => (evs, flow)

/-- What follows a loop: the final `found: false` result when the loop ran to
its end, nothing more when the function returned or threw inside it. -/
def finish : List Event × Flow → Run
  | (evs, .next st) => ⟨evs ++ [.result false none st.tried], .returned⟩
  | (evs, .ret) => ⟨evs, .returned⟩
  | (evs, .throw err) => ⟨evs, .threw err⟩

/-- The function `runDictionary` of `worker.js`. -/
def runDictionary (env : Env) (algorithm targetHex : JsString)
    (candidates : List JsString) : Run :=
  finish (candidateLoop env algorithm targetHex 100 candidates ⟨0, []⟩)

/-- The array `Array.from(new Set(charset.split('')))`: the code units of `charset` in
order, each kept only the first time it is seen. -/
def characters (charset : JsString) : List Nat :=
  charset.foldl (fun set c => if c ∈ set then set else set ++ [c]) []

/-- The candidate `indices.map(i => characters[i]).join('')`; a missing element joins as
the empty string. -/
def candidateOf (chars : List Nat) (indices : List Nat) : JsString :=
  (indices.map (fun i => (chars.get? i).toList)).flatten

/-- The carry loop (lines 98-104), started with `pos + 1 = n`.  Returns the
indices and whether `pos < 0` holds afterwards. -/
def incrementIndices (K : Nat) (indices : List Nat) : Nat → List Nat × Bool
  | 0 => (indices, true)
  | pos + 1 =>
    let v := indices.getD pos 0 + 1
    if v < K then (indices.set pos v, false)
    else incrementIndices K (indices.set pos 0) pos

/-- The `while (true)` loop for one length. -/
def whileLoop (env : Env) (algorithm targetHex : JsString) (chars : List Nat)
    (length : Nat) : Nat → List Nat → SearchState → Option (List Event × Flow)
  | 0, _, _ => none
  | fuel + 1, indices, st =>
    match attemptBody env algorithm targetHex 1000 (candidateOf chars indices) st with
    | (evs, .next st') =>
      match incrementIndices chars.length indices length with
      | (_, true) => some (evs, .next st')
      | (indices', false) =>
        match whileLoop env algorithm targetHex chars length fuel indices' st' with
        | none => none
        | some r => some (evs ++ r.1, r.2)
    | (evs, flow) => some (evs, flow)

/-- The `for (length = startLen; length <= maxLength; length++)` loop, with
`n` the number of lengths still to go. -/
def forLengths (env : Env) (algorithm targetHex : JsString) (chars : List Nat)
    (fuel : Nat) : Nat → Nat → SearchState → Option (List Event × Flow)
  | 0, _, st => some ([], .next st)
  | n + 1, length, st =>
    match whileLoop env algorithm targetHex chars length fuel (List.replicate length 0) st with
    | none => none
    | some (evs, .next st') =>
      match forLengths env algorithm targetHex chars fuel n (length + 1) st' with
      | none => none
      | some r => some (evs ++ r.1, r.2)
    | some (evs, flow) => some (evs, flow)

/-- The first length, `Math.max(1, minLength || 1)`. -/
def startLen (minLength : Nat) : Nat :=
  max 1 (if minLength = 0 then 1 else minLength)

/-- The function `runBruteforce` of `worker.js`; `fuel` bounds each `while (true)`. -/
def runBruteforce (fuel : Nat) (env : Env) (algorithm targetHex charset : JsString)
    (minLength maxLength : Nat) : Option Run :=
  (forLengths env algorithm targetHex (characters charset) fuel
    (maxLength + 1 - startLen minLength) (startLen minLength) ⟨0, []⟩).map finish

/-! ## The message handler of `worker.js` -/

/-- The messages the worker receives. -/
inductive Message where
  | cancel
  | setDelay (delayMs : Nat)
  | startDictionary (algorithm targetHash : JsString) (candidates : List JsString)
  | startBruteforce (algorithm targetHash charset : JsString) (minLength maxLength : Nat)
  | other

/-- The text of an error message: `(err && err.message) || String(err)`. -/
def errorText (err : JsError) : JsString :=
  if err.message ≠ [] then err.message else err.asString

/-- The `try`/`catch` of the handler around a run. -/
def catchError (run : Run) : Run :=
  match run.completion with
  | .returned => run
  | .threw err => ⟨run.events ++ [.error (errorText err)], .returned⟩

/-- The handler `self.onmessage`: the events it posts and how the handler ends.  `cancel`
and `set-delay` only write module variables. -/
def onmessage (fuel : Nat) (env : Env) : Message → Option Run
  | .cancel => some ⟨[], .returned⟩
  | .setDelay _ => some ⟨[], .returned⟩
  | .startDictionary algorithm targetHash candidates =>
    some (catchError (runDictionary env algorithm targetHash candidates))
  | .startBruteforce algorithm targetHash charset minLength maxLength =>
    (runBruteforce fuel env algorithm targetHash charset
      (if minLength = 0 then 1 else minLength) maxLength).map catchError
  | .other => some ⟨[], .returned⟩

/-! ## The start handler of `app.js` -/

/-- The target as the start handler sends it: `(value || '').trim().toLowerCase()`. -/
def normalizeTarget (value : JsString) : JsString :=
  toLowerCase (trim value)

/-- The function `estimateTotalRange` of `app.js`.  Its numbers are IEEE
doubles: integers up to `2 ^ 53` are held exactly, and so is a sum of two of
them that stays within that bound; `Math.pow` is taken to be exact on such
values.  Once a running total would pass `2 ^ 53` the code works with rounded
values, which are not modelled: the result is then `none`. -/
def estimateTotalRange (charsetLen minLen maxLen : Nat) : Option Nat :=
  (List.range' minLen (maxLen + 1 - minLen)).foldl
    (fun total len =>
      match total with
      | none => none
      | some t => if t + charsetLen ^ len ≤ 2 ^ 53 then some (t + charsetLen ^ len) else none)
    (some 0)

/-- Two code units that are equal, or are the upper-case and the lower-case
form of one ASCII letter. -/
def sameLetterUnit (a b : Nat) : Prop :=
  a = b ∨ (65 ≤ a ∧ a ≤ 90 ∧ b = a + 32) ∨ (65 ≤ b ∧ b ≤ 90 ∧ a = b + 32)

/-- Two strings of the same length that differ only in the case of their
letters, position by position. -/
def differOnlyInCase (t1 t2 : JsString) : Prop :=
  List.Forall₂ sameLetterUnit t1 t2

/-! ## Observations on a list of events -/

/-- The `(candidate, tried)` payloads of the attempt events, in order. -/
def attemptsOf (events : List Event) : List (JsString × Nat) :=
  events.filterMap fun e =>
    match e with
    | .attempt candidate tried => some (candidate, tried)
    | _ => none

/-- The `tried` values of the progress events, in order. -/
def progressTriedOf (events : List Event) : List Nat :=
  events.filterMap fun e =>
    match e with
    | .progress tried _ => some tried
    | _ => none

/-- Whether an event is a progress message. -/
def Event.isProgress : Event → Bool
  | .progress _ _ => true
  | _ => false

/-- Whether an event ends a run for the host: a result or an error. -/
def Event.isTerminal : Event → Bool
  | .result _ _ _ => true
  | .error _ => true
  | _ => false

/-- The terminal events of a list, in order. -/
def terminalsOf (events : List Event) : List Event :=
  events.filter Event.isTerminal

/-- Forget the ring snapshot of a progress event; other events are unchanged. -/
def Event.eraseRecent : Event → Event
  | .progress tried _ => .progress tried []
  | e => e

/-- The events of a stretch of candidates none of which matches, ring
snapshots erased: starting after `start` attempts, each candidate gives its
attempt event, followed by a progress event when the count reaches a
multiple of the batch size. -/
def quietTrace (batchSize start : Nat) (xs : List JsString) : List Event :=
  (xs.enumFrom start).flatMap fun p =>
    Event.attempt p.2 (p.1 + 1) ::
      (if (p.1 + 1) % batchSize = 0 then [Event.progress (p.1 + 1) []] else [])

/-! ## The enumeration in the words of the specification -/

/-- The `L`-digit base-`K` numeral of `j`: most significant digit first,
padded with zeros on the left. -/
def numeral (K : Nat) : Nat → Nat → List Nat
  | 0, _ => []
  | L + 1, j => numeral K L (j / K) ++ [j % K]

/-- The distinct code units of a string in first-seen order. -/
def distinctFirstSeen : List Nat → List Nat
  | [] => []
  | c :: cs => c :: (distinctFirstSeen cs).filter (fun x => x ≠ c)

/-- The candidates of one length as the loops visit them: the numerals of
`0, 1, ...` spelled with `chars`; a single empty candidate when `chars` is empty. -/
def lengthBlock (chars : List Nat) (L : Nat) : List JsString :=
  (List.range (max 1 (chars.length ^ L))).map fun j =>
    candidateOf chars (numeral chars.length L j)

/-- The candidates of `n` consecutive lengths from `start`, in ascending length. -/
def enumeration (chars : List Nat) (start n : Nat) : List JsString :=
  (List.range' start n).flatMap (lengthBlock chars)

/-- The candidate sequence in the words of the specification: for
`L = m, m + 1, ..., M` in ascending order, the `K ^ L` strings
`s_{L,0}, ..., s_{L,K^L - 1}`, where `K` is the number of characters `cs` and
`s_{L,j}` is the `L`-digit base-`K` numeral of `j` with digit `d` written as
the character `cs[d]`. -/
def numeralSequence (cs : List Nat) (m M : Nat) : List JsString :=
  (List.range' m (M + 1 - m)).flatMap fun L =>
    (List.range (cs.length ^ L)).map fun j =>
      (numeral cs.length L j).map fun d => cs.getD d 0

/-! ## Both runs as one search -/

/-- Both runs, seen as one search over a list of candidates. -/
def search (env : Env) (algorithm targetHex : JsString) (batchSize : Nat)
    (xs : List JsString) : Run :=
  finish (candidateLoop env algorithm targetHex batchSize xs ⟨0, []⟩)

/-! ## Sample environments -/

/-- An environment whose digest bytes are the code units of the input and in
which nobody cancels. -/
def echoEnv : Env :=
  ⟨fun _ input => .ok input, fun _ => false⟩

/-- The code units of an ASCII literal. -/
def units (s : String) : JsString :=
  s.toList.map Char.toNat

/-- The echo environment with the cancel flag observed set from the second
boundary on (a `cancel` message handled during the first attempt). -/
def cancelAfterOneEnv : Env :=
  ⟨fun _ input => .ok input, fun k => decide (1 ≤ k)⟩

/-- An environment whose digest primitive rejects the algorithm `MD5`. -/
def noMd5Env : Env :=
  ⟨fun algorithm input =>
      if algorithm = units "MD5" then
        .error ⟨units "Unrecognized name", units "NotSupportedError: Unrecognized name"⟩
      else .ok input,
    fun _ => false⟩

/-- An environment in which every digest is the single byte `0xab`. -/
def constEnv : Env :=
  ⟨fun _ _ => .ok [171], fun _ => false⟩

/-- The brute-force total the start handler stores in `totalCandidatesPlanned`
(line 108): `estimateTotalRange(charset.length, minLength, maxLength)`. -/
def totalCandidatesPlanned (charset : JsString) (minLength maxLength : Nat) : Option Nat :=
  estimateTotalRange charset.length minLength maxLength

/-! ## The carry loop counts in base `K` -/

theorem length_numeral (K L j : Nat) : (numeral K L j).length = L := by
  induction L generalizing j with
  | zero => rfl
  | succ L ih => simp [numeral, ih]

theorem numeral_zero (K L : Nat) : numeral K L 0 = List.replicate L 0 := by
  induction L with
  | zero => rfl
  | succ L ih => simp [numeral, ih, List.replicate_succ']

theorem length_incrementIndices (K : Nat) (p : Nat) (xs : List Nat) :
    (incrementIndices K xs p).1.length = xs.length := by
  induction p generalizing xs with
  | zero => rfl
  | succ p ih =>
    simp only [incrementIndices]
    split
    · simp
    · rw [ih]; simp

theorem incrementIndices_append (K : Nat) (p : Nat) (xs ys : List Nat) (h : p ≤ xs.length) :
    incrementIndices K (xs ++ ys) p
      = ((incrementIndices K xs p).1 ++ ys, (incrementIndices K xs p).2) := by
  induction p generalizing xs with
  | zero => rfl
  | succ p ih =>
    have hp : p < xs.length := h
    simp only [incrementIndices, List.getD_append _ _ _ _ hp, List.set_append_left _ _ hp]
    split
    · rfl
    · exact ih _ (by simp; omega)

theorem incrementIndices_numeral_lt (K L j : Nat) (h : j + 1 < K ^ L) :
    incrementIndices K (numeral K L j) L = (numeral K L (j + 1), false) := by
  induction L generalizing j with
  | zero => simp at h
  | succ L ih =>
    have hK : 0 < K := by
      rcases Nat.eq_zero_or_pos K with h0 | h0
      · subst h0; simp at h
      · exact h0
    have hr : j % K < K := Nat.mod_lt _ hK
    have hj : K * (j / K) + j % K = j := Nat.div_add_mod j K
    have hlen : (numeral K L (j / K)).length = L := length_numeral K L (j / K)
    have hget : (numeral K L (j / K) ++ [j % K]).getD L 0 = j % K := by
      rw [List.getD_append_right _ _ _ _ (by omega)]; simp [hlen]
    have hset : ∀ v, (numeral K L (j / K) ++ [j % K]).set L v = numeral K L (j / K) ++ [v] := by
      intro v
      rw [List.set_append_right _ _ (by omega)]; simp [hlen]
    simp only [incrementIndices, numeral, hget, hset]
    by_cases hv : j % K + 1 < K
    · rw [if_pos hv]
      have h1 : (j + 1) / K = j / K := by
        conv_lhs => rw [← hj, Nat.add_assoc, Nat.mul_add_div hK, Nat.div_eq_of_lt hv]
        simp
      have h2 : (j + 1) % K = j % K + 1 := by
        conv_lhs => rw [← hj, Nat.add_assoc, Nat.mul_add_mod, Nat.mod_eq_of_lt hv]
      rw [h1, h2]
    · rw [if_neg hv]
      have hrK : j % K + 1 = K := by omega
      have hj1 : j + 1 = K * (j / K + 1) := by
        rw [Nat.mul_add, Nat.mul_one]; omega
      have h1 : (j + 1) / K = j / K + 1 := by
        rw [hj1, Nat.mul_div_cancel_left _ hK]
      have h2 : (j + 1) % K = 0 := by
        rw [hj1, Nat.mul_mod_right]
      have hq : j / K + 1 < K ^ L := by
        rw [hj1, Nat.pow_succ, Nat.mul_comm] at h
        exact Nat.lt_of_mul_lt_mul_right h
      rw [incrementIndices_append K L _ _ (by omega), ih _ hq, h1, h2]

theorem incrementIndices_numeral_last (K L j : Nat) (h : j + 1 = K ^ L) :
    (incrementIndices K (numeral K L j) L).2 = true := by
  induction L generalizing j with
  | zero => rfl
  | succ L ih =>
    have hK : 0 < K := by
      rcases Nat.eq_zero_or_pos K with h0 | h0
      · subst h0; simp at h
      · exact h0
    have hr : j % K < K := Nat.mod_lt _ hK
    have hj : K * (j / K) + j % K = j := Nat.div_add_mod j K
    have hlen : (numeral K L (j / K)).length = L := length_numeral K L (j / K)
    have hget : (numeral K L (j / K) ++ [j % K]).getD L 0 = j % K := by
      rw [List.getD_append_right _ _ _ _ (by omega)]; simp [hlen]
    have hset : ∀ v, (numeral K L (j / K) ++ [j % K]).set L v = numeral K L (j / K) ++ [v] := by
      intro v
      rw [List.set_append_right _ _ (by omega)]; simp [hlen]
    have hpow : K ^ (L + 1) = K * K ^ L := by rw [Nat.pow_succ, Nat.mul_comm]
    have hv : ¬ j % K + 1 < K := by
      intro hv
      have hdvd : K ∣ j + 1 := ⟨K ^ L, by rw [h, hpow]⟩
      have : (j + 1) % K = j % K + 1 := by
        conv_lhs => rw [← hj, Nat.add_assoc, Nat.mul_add_mod, Nat.mod_eq_of_lt hv]
      rw [Nat.mod_eq_zero_of_dvd hdvd] at this
      omega
    have hrK : j % K + 1 = K := by omega
    have hj1 : j + 1 = K * (j / K + 1) := by
      rw [Nat.mul_add, Nat.mul_one]; omega
    have hq : j / K + 1 = K ^ L := by
      rw [hj1, hpow] at h
      exact Nat.eq_of_mul_eq_mul_left hK h
    simp only [incrementIndices, numeral, hget, hset, if_neg hv]
    rw [incrementIndices_append K L _ _ (by omega)]
    exact ih _ hq

theorem incrementIndices_zero (p : Nat) (xs : List Nat) :
    (incrementIndices 0 xs p).2 = true := by
  induction p generalizing xs with
  | zero => rfl
  | succ p ih => simp [incrementIndices, ih]

/-! ## Brute force is the candidate loop over the enumeration -/

theorem candidateLoop_append (env : Env) (algorithm targetHex : JsString) (b : Nat)
    (xs ys : List JsString) (st : SearchState) :
    candidateLoop env algorithm targetHex b (xs ++ ys) st
      = match candidateLoop env algorithm targetHex b xs st with
        | (evs, .next st') =>
          (evs ++ (candidateLoop env algorithm targetHex b ys st').1,
            (candidateLoop env algorithm targetHex b ys st').2)
        | r => r := by
  induction xs generalizing st with
  | nil => simp [candidateLoop]
  | cons x xs ih =>
    rcases hb : attemptBody env algorithm targetHex b x st with ⟨evs, flow⟩
    cases flow with
    | next st' =>
      rw [List.cons_append]
      simp only [candidateLoop, hb]
      rw [ih st']
      rcases hr : candidateLoop env algorithm targetHex b xs st' with ⟨evs', flow'⟩
      cases flow' <;> simp
    | ret => simp [candidateLoop, hb]
    | throw err => simp [candidateLoop, hb]

theorem whileLoop_eq (env : Env) (algorithm targetHex : JsString) (chars : List Nat) (L : Nat)
    (n : Nat) : ∀ (j fuel : Nat) (st : SearchState), j + (n + 1) = chars.length ^ L →
      n + 1 ≤ fuel →
      whileLoop env algorithm targetHex chars L fuel (numeral chars.length L j) st
        = some (candidateLoop env algorithm targetHex 1000
            ((List.range' j (n + 1)).map fun i => candidateOf chars (numeral chars.length L i))
            st) := by
  induction n with
  | zero =>
    intro j fuel st hj hf
    obtain ⟨fuel, rfl⟩ : ∃ f, fuel = f + 1 := ⟨fuel - 1, by omega⟩
    have hlast := incrementIndices_numeral_last chars.length L j hj
    rcases hi : incrementIndices chars.length (numeral chars.length L j) L with ⟨ind, flag⟩
    rw [hi] at hlast
    simp only at hlast
    subst hlast
    rcases hb : attemptBody env algorithm targetHex 1000
      (candidateOf chars (numeral chars.length L j)) st with ⟨evs, flow⟩
    cases flow <;> simp [whileLoop, candidateLoop, hb, hi]
  | succ n ih =>
    intro j fuel st hj hf
    obtain ⟨fuel, rfl⟩ : ∃ f, fuel = f + 1 := ⟨fuel - 1, by omega⟩
    have hi := incrementIndices_numeral_lt chars.length L j (by omega)
    rcases hb : attemptBody env algorithm targetHex 1000
      (candidateOf chars (numeral chars.length L j)) st with ⟨evs, flow⟩
    cases flow with
    | next st' =>
      have := ih (j + 1) fuel st' (by omega) (by omega)
      rw [List.range'_succ]
      simp only [whileLoop, candidateLoop, hb, hi, this, List.map_cons]
    | ret => rw [List.range'_succ]; simp [whileLoop, candidateLoop, hb]
    | throw err => rw [List.range'_succ]; simp [whileLoop, candidateLoop, hb]

theorem whileLoop_replicate (env : Env) (algorithm targetHex : JsString) (chars : List Nat)
    (L fuel : Nat) (st : SearchState) (hf : max 1 (chars.length ^ L) ≤ fuel) :
    whileLoop env algorithm targetHex chars L fuel (List.replicate L 0) st
      = some (candidateLoop env algorithm targetHex 1000 (lengthBlock chars L) st) := by
  rcases Nat.eq_zero_or_pos (chars.length ^ L) with h0 | hpos
  · -- no character at all: one pass, then the carry runs off the left end
    have hK : chars.length = 0 := by
      rcases Nat.eq_zero_or_pos chars.length with h | h
      · exact h
      · exact absurd h0 (Nat.pos_iff_ne_zero.mp (Nat.pow_pos h))
    obtain ⟨fuel, rfl⟩ : ∃ f, fuel = f + 1 := ⟨fuel - 1, by omega⟩
    have hflag := incrementIndices_zero L (List.replicate L 0)
    rcases hi : incrementIndices 0 (List.replicate L 0) L with ⟨ind, flag⟩
    rw [hi] at hflag
    simp only at hflag
    subst hflag
    have hblock : lengthBlock chars L = [candidateOf chars (List.replicate L 0)] := by
      rw [lengthBlock, h0]; simp [numeral_zero, List.range_succ]
    rw [hblock]
    rcases hb : attemptBody env algorithm targetHex 1000
      (candidateOf chars (List.replicate L 0)) st with ⟨evs, flow⟩
    cases flow <;> simp [whileLoop, candidateLoop, hb, hi, hK]
  · obtain ⟨n, hn⟩ : ∃ n, chars.length ^ L = n + 1 := ⟨chars.length ^ L - 1, by omega⟩
    have hmax : max 1 (chars.length ^ L) = n + 1 := by omega
    have := whileLoop_eq env algorithm targetHex chars L n 0 fuel st (by omega) (by omega)
    rw [numeral_zero] at this
    rw [this, lengthBlock, hmax, List.range_eq_range']

theorem forLengths_eq (env : Env) (algorithm targetHex : JsString) (chars : List Nat)
    (fuel : Nat) (n : Nat) : ∀ (start : Nat) (st : SearchState),
      (∀ L, start ≤ L → L < start + n → max 1 (chars.length ^ L) ≤ fuel) →
      forLengths env algorithm targetHex chars fuel n start st
        = some (candidateLoop env algorithm targetHex 1000 (enumeration chars start n) st) := by
  induction n with
  | zero => intro start st _; simp [forLengths, enumeration, candidateLoop]
  | succ n ih =>
    intro start st hf
    have hw := whileLoop_replicate env algorithm targetHex chars start fuel st
      (hf start (by omega) (by omega))
    have hsplit : enumeration chars start (n + 1)
        = lengthBlock chars start ++ enumeration chars (start + 1) n := by
      simp [enumeration, List.range'_succ, List.flatMap_cons]
    rw [hsplit, candidateLoop_append]
    rcases hr : candidateLoop env algorithm targetHex 1000 (lengthBlock chars start) st
      with ⟨evs, flow⟩
    rw [hr] at hw
    cases flow with
    | next st' =>
      have := ih (start + 1) st' (fun L h1 h2 => hf L (by omega) (by omega))
      simp [forLengths, hw, this]
    | ret => simp [forLengths, hw]
    | throw err => simp [forLengths, hw]

theorem pow_le_fuel (K M L fuel : Nat) (hL : L ≤ M) (hf : (max 1 K) ^ M ≤ fuel) :
    max 1 (K ^ L) ≤ fuel := by
  have h1 : K ^ L ≤ (max 1 K) ^ L := Nat.pow_le_pow_left (le_max_right 1 K) L
  have h2 : (max 1 K) ^ L ≤ (max 1 K) ^ M := Nat.pow_le_pow_right (le_max_left 1 K) hL
  have h3 : 1 ≤ (max 1 K) ^ M := Nat.one_le_pow _ _ (le_max_left 1 K)
  exact max_le (le_trans h3 hf) (le_trans (le_trans h1 h2) hf)

/-- With fuel for the longest length, `runBruteforce` is the candidate loop of
`runDictionary` (batch size 1000) run over the enumeration. -/
theorem runBruteforce_eq (fuel : Nat) (env : Env) (algorithm targetHex charset : JsString)
    (minLength maxLength : Nat)
    (hf : (max 1 (characters charset).length) ^ maxLength ≤ fuel) :
    runBruteforce fuel env algorithm targetHex charset minLength maxLength
      = some (finish (candidateLoop env algorithm targetHex 1000
          (enumeration (characters charset) (startLen minLength)
            (maxLength + 1 - startLen minLength)) ⟨0, []⟩)) := by
  have h1 : 1 ≤ startLen minLength := le_max_left _ _
  rw [runBruteforce, forLengths_eq]
  · rfl
  · intro L hL1 hL
    exact pow_le_fuel _ maxLength L fuel (by omega) hf

/-! ## The candidate loop on a stretch without a match -/

theorem attemptBody_quiet (env : Env) (algorithm targetHex : JsString) (b : Nat)
    (c : JsString) (st : SearchState) (h : JsString)
    (hc : env.cancelRequested st.tried = false)
    (hd : digestStringHex env algorithm c = .ok h) (hne : h ≠ targetHex) :
    ∃ evs, attemptBody env algorithm targetHex b c st
        = (evs, .next ⟨st.tried + 1, trackRecent st.recentRing c⟩)
      ∧ evs.map Event.eraseRecent = Event.attempt c (st.tried + 1) ::
          (if (st.tried + 1) % b = 0 then [Event.progress (st.tried + 1) []] else []) := by
  by_cases hb : (st.tried + 1) % b = 0
  · refine ⟨[.attempt c (st.tried + 1), .progress (st.tried + 1)
      ((trackRecent st.recentRing c).drop
        ((trackRecent st.recentRing c).length - RECENT_LIMIT))], ?_, ?_⟩
    · simp [attemptBody, hc, hd, hne, hb]
    · simp [hb, Event.eraseRecent]
  · refine ⟨[.attempt c (st.tried + 1)], ?_, ?_⟩
    · simp [attemptBody, hc, hd, hne, hb]
    · simp [hb, Event.eraseRecent]

theorem candidateLoop_quiet (env : Env) (algorithm targetHex : JsString) (b : Nat)
    (xs : List JsString) : ∀ (st : SearchState),
      (∀ j, j < st.tried + xs.length → env.cancelRequested j = false) →
      (∀ c ∈ xs, ∃ h, digestStringHex env algorithm c = .ok h ∧ h ≠ targetHex) →
      ∃ evs, candidateLoop env algorithm targetHex b xs st
          = (evs, .next ⟨st.tried + xs.length, xs.foldl trackRecent st.recentRing⟩)
        ∧ evs.map Event.eraseRecent = quietTrace b st.tried xs := by
  induction xs with
  | nil => intro st _ _; exact ⟨[], by simp [candidateLoop], by simp [quietTrace]⟩
  | cons x xs ih =>
    intro st hc hq
    obtain ⟨h, hd, hne⟩ := hq x (by simp)
    obtain ⟨evs, hb, hevs⟩ := attemptBody_quiet env algorithm targetHex b x st h
      (hc _ (by simp)) hd hne
    obtain ⟨evs', hl, hevs'⟩ := ih ⟨st.tried + 1, trackRecent st.recentRing x⟩
      (fun j hj => hc j (by simp at hj ⊢; omega)) (fun c hcm => hq c (by simp [hcm]))
    refine ⟨evs ++ evs', ?_, ?_⟩
    · simp [candidateLoop, hb, hl, Nat.add_assoc, Nat.add_comm 1]
    · simp only [List.map_append, hevs, hevs', quietTrace, List.enumFrom_cons,
        List.flatMap_cons]

theorem candidateLoop_quiet_init (env : Env) (algorithm targetHex : JsString) (b : Nat)
    (xs : List JsString)
    (hc : ∀ j, j < xs.length → env.cancelRequested j = false)
    (hq : ∀ c ∈ xs, ∃ h, digestStringHex env algorithm c = .ok h ∧ h ≠ targetHex) :
    ∃ evs, candidateLoop env algorithm targetHex b xs ⟨0, []⟩
        = (evs, .next ⟨xs.length, xs.foldl trackRecent []⟩)
      ∧ evs.map Event.eraseRecent = quietTrace b 0 xs := by
  simpa using candidateLoop_quiet env algorithm targetHex b xs ⟨0, []⟩
    (fun j hj => hc j (by simpa using hj)) hq

theorem attemptBody_cancel (env : Env) (algorithm targetHex : JsString) (b : Nat)
    (c : JsString) (st : SearchState) (hc : env.cancelRequested st.tried = true) :
    attemptBody env algorithm targetHex b c st = ([], .ret) := by
  simp [attemptBody, hc]

theorem attemptBody_found (env : Env) (algorithm targetHex : JsString) (b : Nat)
    (c : JsString) (st : SearchState) (hc : env.cancelRequested st.tried = false)
    (hd : digestStringHex env algorithm c = .ok targetHex) :
    attemptBody env algorithm targetHex b c st
      = ([.attempt c (st.tried + 1), .result true (some c) (st.tried + 1)], .ret) := by
  simp [attemptBody, hc, hd]

theorem attemptBody_throw (env : Env) (algorithm targetHex : JsString) (b : Nat)
    (c : JsString) (st : SearchState) (err : JsError)
    (hc : env.cancelRequested st.tried = false)
    (hd : digestStringHex env algorithm c = .error err) :
    attemptBody env algorithm targetHex b c st = ([], .throw err) := by
  simp [attemptBody, hc, hd]

/-- A search whose candidates all fail to match: the quiet trace, then the
`found: false` result. -/
theorem search_exhausted (env : Env) (algorithm targetHex : JsString) (b : Nat)
    (xs : List JsString)
    (hc : ∀ j, j < xs.length → env.cancelRequested j = false)
    (hq : ∀ c ∈ xs, ∃ h, digestStringHex env algorithm c = .ok h ∧ h ≠ targetHex) :
    (search env algorithm targetHex b xs).events.map Event.eraseRecent
        = quietTrace b 0 xs ++ [Event.result false none xs.length]
      ∧ (search env algorithm targetHex b xs).completion = .returned := by
  obtain ⟨evs, hl, hevs⟩ := candidateLoop_quiet_init env algorithm targetHex b xs hc hq
  simp [search, hl, finish, hevs, Event.eraseRecent]

/-- A search stopped by a match at the candidate after `pre`. -/
theorem search_found (env : Env) (algorithm targetHex : JsString) (b : Nat)
    (pre : List JsString) (c : JsString) (rest : List JsString)
    (hc : ∀ j, j ≤ pre.length → env.cancelRequested j = false)
    (hq : ∀ p ∈ pre, ∃ h, digestStringHex env algorithm p = .ok h ∧ h ≠ targetHex)
    (hd : digestStringHex env algorithm c = .ok targetHex) :
    (search env algorithm targetHex b (pre ++ c :: rest)).events.map Event.eraseRecent
        = quietTrace b 0 pre ++ [Event.attempt c (pre.length + 1),
            Event.result true (some c) (pre.length + 1)]
      ∧ (search env algorithm targetHex b (pre ++ c :: rest)).completion = .returned := by
  obtain ⟨evs, hl, hevs⟩ := candidateLoop_quiet_init env algorithm targetHex b pre
    (fun j hj => hc j (by omega)) hq
  have hb := attemptBody_found env algorithm targetHex b c
    ⟨pre.length, pre.foldl trackRecent []⟩ (hc _ (by simp)) hd
  simp [search, candidateLoop_append, hl, candidateLoop, hb, finish, hevs, Event.eraseRecent]

/-- A search stopped by the cancel flag at the boundary after `pre`: the
events are those of the loop over `pre` alone. -/
theorem search_cancelled (env : Env) (algorithm targetHex : JsString) (b : Nat)
    (pre : List JsString) (c : JsString) (rest : List JsString)
    (hc : ∀ j, j < pre.length → env.cancelRequested j = false)
    (hk : env.cancelRequested pre.length = true)
    (hq : ∀ p ∈ pre, ∃ h, digestStringHex env algorithm p = .ok h ∧ h ≠ targetHex) :
    (search env algorithm targetHex b (pre ++ c :: rest)).events
        = (candidateLoop env algorithm targetHex b pre ⟨0, []⟩).1
      ∧ (search env algorithm targetHex b (pre ++ c :: rest)).events.map Event.eraseRecent
        = quietTrace b 0 pre
      ∧ (search env algorithm targetHex b (pre ++ c :: rest)).completion = .returned := by
  obtain ⟨evs, hl, hevs⟩ := candidateLoop_quiet_init env algorithm targetHex b pre hc hq
  have hb := attemptBody_cancel env algorithm targetHex b c
    ⟨pre.length, pre.foldl trackRecent []⟩ (by simpa using hk)
  simp [search, candidateLoop_append, hl, candidateLoop, hb, finish, hevs]

/-- A search stopped by a rejected digest at the candidate after `pre`. -/
theorem search_threw (env : Env) (algorithm targetHex : JsString) (b : Nat)
    (pre : List JsString) (c : JsString) (rest : List JsString) (err : JsError)
    (hc : ∀ j, j ≤ pre.length → env.cancelRequested j = false)
    (hq : ∀ p ∈ pre, ∃ h, digestStringHex env algorithm p = .ok h ∧ h ≠ targetHex)
    (hd : digestStringHex env algorithm c = .error err) :
    (search env algorithm targetHex b (pre ++ c :: rest)).events.map Event.eraseRecent
        = quietTrace b 0 pre
      ∧ (search env algorithm targetHex b (pre ++ c :: rest)).completion = .threw err := by
  obtain ⟨evs, hl, hevs⟩ := candidateLoop_quiet_init env algorithm targetHex b pre
    (fun j hj => hc j (by omega)) hq
  have hb := attemptBody_throw env algorithm targetHex b c
    ⟨pre.length, pre.foldl trackRecent []⟩ err (hc _ (by simp)) hd
  simp [search, candidateLoop_append, hl, candidateLoop, hb, finish, hevs]

/-- The loop reads the digest only at the candidates it is given. -/
theorem candidateLoop_congr (env env' : Env) (algorithm targetHex : JsString) (b : Nat)
    (xs : List JsString) (hcancel : env'.cancelRequested = env.cancelRequested)
    (hdig : ∀ c ∈ xs, digestStringHex env' algorithm c = digestStringHex env algorithm c) :
    ∀ st, candidateLoop env' algorithm targetHex b xs st
      = candidateLoop env algorithm targetHex b xs st := by
  induction xs with
  | nil => intro st; rfl
  | cons x xs ih =>
    intro st
    have hb : attemptBody env' algorithm targetHex b x st
        = attemptBody env algorithm targetHex b x st := by
      simp only [attemptBody, hcancel, hdig x (by simp)]
    simp only [candidateLoop, hb]
    rcases attemptBody env algorithm targetHex b x st with ⟨evs, flow⟩
    cases flow with
    | next st' => simp only [ih (fun c hcm => hdig c (by simp [hcm])) st']
    | ret => rfl
    | throw err => rfl

/-! ## Reading attempts, progress and terminal events off a trace -/

theorem attemptsOf_map_eraseRecent (l : List Event) :
    attemptsOf (l.map Event.eraseRecent) = attemptsOf l := by
  induction l with
  | nil => rfl
  | cons e l ih =>
    cases e <;> simp_all [attemptsOf, Event.eraseRecent]

theorem progressTriedOf_map_eraseRecent (l : List Event) :
    progressTriedOf (l.map Event.eraseRecent) = progressTriedOf l := by
  induction l with
  | nil => rfl
  | cons e l ih =>
    cases e <;> simp_all [progressTriedOf, Event.eraseRecent]

theorem terminalsOf_map_eraseRecent (l : List Event) :
    terminalsOf (l.map Event.eraseRecent) = terminalsOf l := by
  induction l with
  | nil => rfl
  | cons e l ih =>
    cases e <;> simp_all [terminalsOf, Event.eraseRecent, Event.isTerminal]

theorem filter_isProgress_map_eraseRecent (l : List Event) :
    (l.map Event.eraseRecent).filter (fun e => !e.isProgress)
      = l.filter (fun e => !e.isProgress) := by
  induction l with
  | nil => rfl
  | cons e l ih =>
    cases e <;> simp_all [Event.eraseRecent, Event.isProgress]

theorem attemptsOf_quietTrace (b : Nat) (xs : List JsString) : ∀ s,
    attemptsOf (quietTrace b s xs) = (xs.enumFrom s).map fun p => (p.2, p.1 + 1) := by
  induction xs with
  | nil => intro s; rfl
  | cons x xs ih =>
    intro s
    have := ih (s + 1)
    simp only [quietTrace, attemptsOf] at this ⊢
    by_cases hb : (s + 1) % b = 0 <;>
      simp [List.enumFrom_cons, List.flatMap_cons, hb, this]

theorem progressTriedOf_quietTrace (b : Nat) (xs : List JsString) : ∀ s,
    progressTriedOf (quietTrace b s xs)
      = (List.range' (s + 1) xs.length).filter fun t => t % b = 0 := by
  induction xs with
  | nil => intro s; rfl
  | cons x xs ih =>
    intro s
    have := ih (s + 1)
    simp only [quietTrace, progressTriedOf] at this ⊢
    by_cases hb : (s + 1) % b = 0 <;>
      simp [List.enumFrom_cons, List.flatMap_cons, hb, this, List.range'_succ]

theorem terminalsOf_quietTrace (b : Nat) (xs : List JsString) : ∀ s,
    terminalsOf (quietTrace b s xs) = [] := by
  induction xs with
  | nil => intro s; rfl
  | cons x xs ih =>
    intro s
    have := ih (s + 1)
    simp only [quietTrace, terminalsOf] at this ⊢
    by_cases hb : (s + 1) % b = 0 <;>
      simp [List.enumFrom_cons, List.flatMap_cons, hb, this, Event.isTerminal]

theorem quietTrace_cons (b s : Nat) (x : JsString) (xs : List JsString) :
    quietTrace b s (x :: xs) = Event.attempt x (s + 1) ::
      ((if (s + 1) % b = 0 then [Event.progress (s + 1) []] else [])
        ++ quietTrace b (s + 1) xs) := by
  simp [quietTrace, List.enumFrom_cons, List.flatMap_cons]

theorem filter_isProgress_quietTrace (b : Nat) (xs : List JsString) : ∀ s,
    (quietTrace b s xs).filter (fun e => !e.isProgress)
      = (xs.enumFrom s).map fun p => Event.attempt p.2 (p.1 + 1) := by
  induction xs with
  | nil => intro s; rfl
  | cons x xs ih =>
    intro s
    rw [quietTrace_cons, List.enumFrom_cons, List.map_cons, List.filter_cons,
      List.filter_append, ih]
    by_cases hb : (s + 1) % b = 0 <;> simp [hb, Event.isProgress]

theorem filter_multiples_of_hundred (n : Nat) :
    (List.range' 1 n).filter (fun t => t % 100 = 0)
      = (List.range (n / 100)).map fun k => 100 * (k + 1) := by
  induction n with
  | zero => rfl
  | succ n ih =>
    rw [List.range'_concat, List.filter_append, ih]
    by_cases h : (n + 1) % 100 = 0
    · have hd : (n + 1) / 100 = n / 100 + 1 := by omega
      have hn : 1 + n = 100 * (n / 100 + 1) := by omega
      rw [hd, List.range_succ, List.map_append]
      simp [hn]
    · have hd : (n + 1) / 100 = n / 100 := by omega
      have h1 : ¬ (1 + n) % 100 = 0 := by omega
      rw [hd]
      simp [h1]

theorem runDictionary_eq_search (env : Env) (algorithm targetHex : JsString)
    (candidates : List JsString) :
    runDictionary env algorithm targetHex candidates
      = search env algorithm targetHex 100 candidates := rfl

theorem runBruteforce_eq_search (fuel : Nat) (env : Env) (algorithm targetHex charset : JsString)
    (minLength maxLength : Nat)
    (hf : (max 1 (characters charset).length) ^ maxLength ≤ fuel) :
    runBruteforce fuel env algorithm targetHex charset minLength maxLength
      = some (search env algorithm targetHex 1000
          (enumeration (characters charset) (startLen minLength)
            (maxLength + 1 - startLen minLength))) :=
  runBruteforce_eq fuel env algorithm targetHex charset minLength maxLength hf

theorem exists_first_split {α : Type} (P : α → Prop) (xs : List α) (h : ∃ c ∈ xs, P c) :
    ∃ pre c rest, xs = pre ++ c :: rest ∧ (∀ p ∈ pre, ¬ P p) ∧ P c := by
  classical
  induction xs with
  | nil => simp at h
  | cons x xs ih =>
    by_cases hx : P x
    · exact ⟨[], x, xs, rfl, by simp, hx⟩
    · have : ∃ c ∈ xs, P c := by
        obtain ⟨c, hc, hP⟩ := h
        rcases List.mem_cons.mp hc with rfl | hc
        · exact absurd hP hx
        · exact ⟨c, hc, hP⟩
      obtain ⟨pre, c, rest, hxs, hpre, hc⟩ := ih this
      refine ⟨x :: pre, c, rest, by simp [hxs], ?_, hc⟩
      intro p hp
      rcases List.mem_cons.mp hp with rfl | hp
      · exact hx
      · exact hpre p hp

theorem search_first_match (env : Env) (algorithm targetHex : JsString) (b : Nat)
    (hex : JsString → JsString) (xs : List JsString)
    (hcancel : ∀ k, env.cancelRequested k = false)
    (hdigest : ∀ c, digestStringHex env algorithm c = .ok (hex c))
    (h : ∃ c ∈ xs, hex c = targetHex) :
    ∃ pre c rest, xs = pre ++ c :: rest ∧ (∀ p ∈ pre, hex p ≠ targetHex)
      ∧ hex c = targetHex
      ∧ (search env algorithm targetHex b xs).events.map Event.eraseRecent
          = quietTrace b 0 pre ++ [Event.attempt c (pre.length + 1),
              Event.result true (some c) (pre.length + 1)]
      ∧ attemptsOf (search env algorithm targetHex b xs).events
          = (pre ++ [c]).enum.map (fun p => (p.2, p.1 + 1))
      ∧ (search env algorithm targetHex b xs).completion = .returned := by
  obtain ⟨pre, c, rest, hxs, hpre, hc⟩ := exists_first_split (fun c => hex c = targetHex) xs h
  subst hxs
  have hs := search_found env algorithm targetHex b pre c rest (fun j _ => hcancel j)
    (fun p hp => ⟨hex p, hdigest p, hpre p hp⟩) (by rw [hdigest c, hc])
  refine ⟨pre, c, rest, rfl, hpre, hc, hs.1, ?_, hs.2⟩
  rw [← attemptsOf_map_eraseRecent, hs.1]
  simp [attemptsOf, List.filterMap_append, List.enum, List.enumFrom_append]
  have := attemptsOf_quietTrace b pre 0
  simpa [attemptsOf] using this

/-! ## Cancellation, failure and target normalisation -/

theorem split_at_index {α : Type} (xs : List α) (k : Nat) (hk : k < xs.length) :
    ∃ c rest, xs = xs.take k ++ c :: rest ∧ (xs.take k).length = k := by
  refine ⟨xs[k], xs.drop (k + 1), ?_, ?_⟩
  · rw [← List.drop_eq_getElem_cons hk, List.take_append_drop]
  · rw [List.length_take]; omega

/-- A search cancelled at boundary `k`: its events are those of the loop over
the first `k` candidates, and it returns. -/
theorem search_cancel_at (env : Env) (algorithm targetHex : JsString) (b : Nat)
    (xs : List JsString) (k : Nat) (hk : k < xs.length)
    (hc : ∀ j, j < k → env.cancelRequested j = false)
    (hat : env.cancelRequested k = true)
    (hq : ∀ p ∈ xs.take k, ∃ h, digestStringHex env algorithm p = .ok h ∧ h ≠ targetHex) :
    search env algorithm targetHex b xs
        = ⟨(candidateLoop env algorithm targetHex b (xs.take k) ⟨0, []⟩).1, .returned⟩
      ∧ (search env algorithm targetHex b xs).events.map Event.eraseRecent
        = quietTrace b 0 (xs.take k) := by
  obtain ⟨c, rest, hxs, hlen⟩ := split_at_index xs k hk
  have hs := search_cancelled env algorithm targetHex b (xs.take k) c rest
    (fun j hj => hc j (by omega)) (by rw [hlen]; exact hat) hq
  rw [← hxs] at hs
  refine ⟨?_, hs.2.1⟩
  rcases hrun : search env algorithm targetHex b xs with ⟨evs, compl⟩
  rw [hrun] at hs
  simp only at hs
  rw [hs.1, hs.2.2]

theorem length_attemptsOf_of_quietTrace (l : List Event) (b : Nat) (xs : List JsString)
    (h : l.map Event.eraseRecent = quietTrace b 0 xs) :
    (attemptsOf l).length = xs.length := by
  rw [← attemptsOf_map_eraseRecent, h, attemptsOf_quietTrace]
  simp

theorem terminalsOf_of_quietTrace (l : List Event) (b : Nat) (xs : List JsString)
    (h : l.map Event.eraseRecent = quietTrace b 0 xs) :
    terminalsOf l = [] := by
  rw [← terminalsOf_map_eraseRecent, h, terminalsOf_quietTrace]

/-- The full statement about a search cancelled at boundary `k`. -/
theorem search_cancel_silent (env : Env) (algorithm targetHex : JsString) (b : Nat)
    (xs : List JsString) (k : Nat) (hk : k < xs.length)
    (hc : ∀ j, j < k → env.cancelRequested j = false)
    (hat : env.cancelRequested k = true)
    (hq : ∀ p ∈ xs.take k, ∃ h, digestStringHex env algorithm p = .ok h ∧ h ≠ targetHex) :
    (search env algorithm targetHex b xs).events.map Event.eraseRecent
        = quietTrace b 0 (xs.take k)
      ∧ terminalsOf (search env algorithm targetHex b xs).events = []
      ∧ (attemptsOf (search env algorithm targetHex b xs).events).length = k
      ∧ (search env algorithm targetHex b xs).completion = .returned
      ∧ ∀ env' : Env, env'.cancelRequested = env.cancelRequested →
          (∀ p ∈ xs.take k,
            digestStringHex env' algorithm p = digestStringHex env algorithm p) →
          search env' algorithm targetHex b xs = search env algorithm targetHex b xs := by
  have hs := search_cancel_at env algorithm targetHex b xs k hk hc hat hq
  have hlen : (xs.take k).length = k := by rw [List.length_take]; omega
  refine ⟨hs.2, terminalsOf_of_quietTrace _ b _ hs.2, ?_, ?_, ?_⟩
  · rw [length_attemptsOf_of_quietTrace _ b _ hs.2, hlen]
  · rw [hs.1]
  · intro env' hcancel hdig
    have hs' := search_cancel_at env' algorithm targetHex b xs k hk
      (fun j hj => by rw [hcancel]; exact hc j hj) (by rw [hcancel]; exact hat)
      (fun p hp => by rw [hdig p hp]; exact hq p hp)
    rw [hs'.1, hs.1, candidateLoop_congr env env' algorithm targetHex b _ hcancel hdig]

theorem startLen_of_pos (m : Nat) (h : 1 ≤ m) : startLen m = m := by
  have : m ≠ 0 := by omega
  simp [startLen, this]
  omega

theorem startLen_orOne (m : Nat) : startLen (if m = 0 then 1 else m) = startLen m := by
  by_cases h : m = 0 <;> simp [startLen, h]

/-- What the handler makes of a search that throws after a quiet stretch. -/
theorem catchError_threw (run : Run) (b : Nat) (pre : List JsString) (err : JsError)
    (h1 : run.events.map Event.eraseRecent = quietTrace b 0 pre)
    (h2 : run.completion = .threw err) :
    (catchError run).events.map Event.eraseRecent
        = quietTrace b 0 pre ++ [Event.error (errorText err)]
      ∧ (attemptsOf (catchError run).events).length = pre.length
      ∧ terminalsOf (catchError run).events = [Event.error (errorText err)]
      ∧ (catchError run).completion = .returned := by
  have hev : (catchError run).events = run.events ++ [Event.error (errorText err)] := by
    simp [catchError, h2]
  have hco : (catchError run).completion = .returned := by
    simp [catchError, h2]
  refine ⟨?_, ?_, ?_, hco⟩
  · rw [hev, List.map_append, h1]; rfl
  · rw [hev]
    have := length_attemptsOf_of_quietTrace _ b _ h1
    simpa [attemptsOf, List.filterMap_append] using this
  · rw [hev]
    have := terminalsOf_of_quietTrace _ b _ h1
    simp only [terminalsOf, List.filter_append] at this ⊢
    rw [this]; rfl

theorem isWhiteSpace_toLowerCaseUnit (u : Nat) :
    isWhiteSpace (toLowerCaseUnit u) = isWhiteSpace u := by
  by_cases h : 65 ≤ u ∧ u ≤ 90
  · have h1 : isWhiteSpace (u + 32) = false := by
      simp only [isWhiteSpace, Bool.or_eq_false_iff, Bool.and_eq_false_iff,
        decide_eq_false_iff_not]
      omega
    have h2 : isWhiteSpace u = false := by
      simp only [isWhiteSpace, Bool.or_eq_false_iff, Bool.and_eq_false_iff,
        decide_eq_false_iff_not]
      omega
    simp only [toLowerCaseUnit, if_pos h, h1, h2]
  · simp only [toLowerCaseUnit, if_neg h]

theorem trim_toLowerCase (s : JsString) : trim (toLowerCase s) = toLowerCase (trim s) := by
  have hcomp : isWhiteSpace ∘ toLowerCaseUnit = isWhiteSpace := by
    funext u; exact isWhiteSpace_toLowerCaseUnit u
  simp only [trim, toLowerCase, List.dropWhile_map, hcomp, ← List.map_reverse]

/-! ## The alphabet and the size of the enumeration -/

theorem characters_foldl (xs : List Nat) : ∀ acc : List Nat,
    xs.foldl (fun set c => if c ∈ set then set else set ++ [c]) acc
      = acc ++ (distinctFirstSeen xs).filter (fun x => decide (x ∉ acc)) := by
  induction xs with
  | nil => intro acc; simp [distinctFirstSeen]
  | cons c cs ih =>
    intro acc
    simp only [List.foldl_cons, distinctFirstSeen]
    by_cases hc : c ∈ acc
    · rw [if_pos hc, ih, List.filter_cons]
      simp only [hc, not_true_eq_false, decide_False, Bool.false_eq_true, if_false,
        List.filter_filter]
      congr 1
      apply List.filter_congr
      intro x _
      by_cases hx : x ∈ acc
      · simp [hx]
      · have : x ≠ c := fun h => hx (h ▸ hc)
        simp [hx, this]
    · rw [if_neg hc, ih, List.filter_cons]
      simp only [hc, not_false_eq_true, decide_True, if_true, List.filter_filter,
        List.append_assoc, List.singleton_append]
      congr 2
      apply List.filter_congr
      intro x _
      by_cases hx : x ∈ acc <;> by_cases hxc : x = c <;> simp [hx, hxc]

theorem characters_eq (charset : JsString) : characters charset = distinctFirstSeen charset := by
  simp [characters, characters_foldl]

theorem mem_distinctFirstSeen (xs : List Nat) (x : Nat) :
    x ∈ distinctFirstSeen xs ↔ x ∈ xs := by
  induction xs with
  | nil => simp [distinctFirstSeen]
  | cons c cs ih =>
    simp only [distinctFirstSeen, List.mem_cons, List.mem_filter, ih]
    by_cases h : x = c <;> simp [h]

theorem nodup_distinctFirstSeen (xs : List Nat) : (distinctFirstSeen xs).Nodup := by
  induction xs with
  | nil => simp [distinctFirstSeen]
  | cons c cs ih =>
    simp only [distinctFirstSeen, List.nodup_cons]
    exact ⟨by simp [List.mem_filter], ih.filter _⟩

theorem length_distinctFirstSeen (xs : List Nat) :
    (distinctFirstSeen xs).length = xs.toFinset.card := by
  rw [← List.toFinset_card_of_nodup (nodup_distinctFirstSeen xs)]
  congr 1
  ext x
  simp [mem_distinctFirstSeen]

theorem candidateOf_eq_map (chars : List Nat) (ds : List Nat)
    (h : ∀ d ∈ ds, d < chars.length) :
    candidateOf chars ds = ds.map (fun d => chars.getD d 0) := by
  induction ds with
  | nil => rfl
  | cons d ds ih =>
    have hd : d < chars.length := h d (by simp)
    have := ih (fun x hx => h x (by simp [hx]))
    simp only [candidateOf, List.get?_eq_getElem?, List.getD_eq_getElem?_getD] at this ⊢
    simp [this, List.getElem?_eq_getElem hd]

theorem numeral_lt (K L j : Nat) (hK : 0 < K) : ∀ d ∈ numeral K L j, d < K := by
  induction L generalizing j with
  | zero => simp [numeral]
  | succ L ih =>
    intro d hd
    simp only [numeral, List.mem_append, List.mem_singleton] at hd
    rcases hd with hd | rfl
    · exact ih _ d hd
    · exact Nat.mod_lt _ hK

theorem numeral_injective (K L : Nat) : ∀ i j, i < K ^ L → j < K ^ L →
    numeral K L i = numeral K L j → i = j := by
  induction L with
  | zero => intro i j hi hj _; simp at hi hj; omega
  | succ L ih =>
    intro i j hi hj h
    simp only [numeral] at h
    obtain ⟨h1, h2⟩ := List.append_inj h (by simp [length_numeral])
    have hpow : K ^ (L + 1) = K * K ^ L := by rw [Nat.pow_succ, Nat.mul_comm]
    rw [hpow] at hi hj
    have hq := ih (i / K) (j / K) (Nat.div_lt_of_lt_mul hi) (Nat.div_lt_of_lt_mul hj) h1
    have hr : i % K = j % K := by simpa using h2
    rw [← Nat.div_add_mod i K, ← Nat.div_add_mod j K, hq, hr]

theorem map_getD_injective (chars : List Nat) (hnd : chars.Nodup) :
    ∀ l1 l2 : List Nat, (∀ a ∈ l1, a < chars.length) → (∀ b ∈ l2, b < chars.length) →
      l1.map (fun d => chars.getD d 0) = l2.map (fun d => chars.getD d 0) → l1 = l2 := by
  intro l1
  induction l1 with
  | nil => intro l2 _ _ h; simpa using h.symm
  | cons a l1 ih =>
    intro l2 h1 h2 h
    cases l2 with
    | nil => simp at h
    | cons b l2 =>
      simp only [List.map_cons, List.cons.injEq] at h
      have ha : a < chars.length := h1 a (by simp)
      have hb : b < chars.length := h2 b (by simp)
      have hab : a = b := by
        have := h.1
        rw [List.getD_eq_getElem _ _ ha, List.getD_eq_getElem _ _ hb] at this
        exact (hnd.getElem_inj_iff).mp this
      rw [hab, ih l2 (fun x hx => h1 x (by simp [hx])) (fun x hx => h2 x (by simp [hx])) h.2]

/-- With at least one character, the enumeration is the list of numerals of
each length, digit `d` written as the character at position `d`. -/
theorem enumeration_eq (chars : List Nat) (hK : 0 < chars.length) (start n : Nat) :
    enumeration chars start n
      = (List.range' start n).flatMap fun L =>
          (List.range (chars.length ^ L)).map fun j =>
            (numeral chars.length L j).map (fun d => chars.getD d 0) := by
  simp only [enumeration]
  congr 1
  funext L
  have hpow : max 1 (chars.length ^ L) = chars.length ^ L :=
    max_eq_right (Nat.one_le_pow _ _ hK)
  rw [lengthBlock, hpow]
  apply List.map_congr_left
  intro j _
  exact candidateOf_eq_map chars _ (numeral_lt _ L j hK)

theorem length_enumeration (chars : List Nat) (hK : 0 < chars.length) (start n : Nat) :
    (enumeration chars start n).length
      = ((List.range' start n).map fun L => chars.length ^ L).sum := by
  rw [enumeration_eq chars hK, List.length_flatMap]
  congr 1
  apply List.map_congr_left
  intro L _
  simp

theorem nodup_enumeration (chars : List Nat) (hK : 0 < chars.length) (hnd : chars.Nodup)
    (start n : Nat) : (enumeration chars start n).Nodup := by
  rw [enumeration_eq chars hK, List.nodup_flatMap]
  constructor
  · intro L _
    apply List.Nodup.map_on _ (List.nodup_range _)
    intro i hi j hj h
    rw [List.mem_range] at hi hj
    exact numeral_injective _ L i j hi hj
      (map_getD_injective chars hnd _ _ (numeral_lt _ L i hK) (numeral_lt _ L j hK) h)
  · apply (List.nodup_range' start n).pairwise_of_forall_ne
    intro L _ L' _ hne
    simp only [Function.onFun]
    intro s hs hs'
    rw [List.mem_map] at hs hs'
    obtain ⟨i, _, rfl⟩ := hs
    obtain ⟨j, _, hj⟩ := hs'
    have := congrArg List.length hj
    simp [length_numeral] at this
    exact hne this.symm

/-- The attempts of a search in which nothing matches carry the candidates in order. -/
theorem attemptsOf_search_exhausted (env : Env) (algorithm targetHex : JsString) (b : Nat)
    (xs : List JsString)
    (hc : ∀ j, j < xs.length → env.cancelRequested j = false)
    (hq : ∀ c ∈ xs, ∃ h, digestStringHex env algorithm c = .ok h ∧ h ≠ targetHex) :
    (attemptsOf (search env algorithm targetHex b xs).events).map Prod.fst = xs := by
  have hs := search_exhausted env algorithm targetHex b xs hc hq
  have hq' := attemptsOf_quietTrace b xs 0
  have hat : attemptsOf (search env algorithm targetHex b xs).events
      = (xs.enumFrom 0).map fun p => (p.2, p.1 + 1) := by
    rw [← attemptsOf_map_eraseRecent, hs.1]
    simp only [attemptsOf, List.filterMap_append] at hq' ⊢
    simp [hq']
  rw [hat]
  simp only [List.map_map]
  exact List.enumFrom_map_snd 0 xs

theorem enumeration_eq_numeralSequence (charset : JsString) (m M : Nat)
    (hK : 0 < (distinctFirstSeen charset).length) (hm : 1 ≤ m) :
    enumeration (characters charset) (startLen m) (M + 1 - startLen m)
      = numeralSequence (distinctFirstSeen charset) m M := by
  rw [startLen_of_pos m hm, characters_eq, enumeration_eq _ hK]
  rfl

theorem sum_range'_eq_sum_Icc (f : Nat → Nat) (m M : Nat) :
    ((List.range' m (M + 1 - m)).map f).sum = ∑ L ∈ Finset.Icc m M, f L := rfl

/-- A brute-force run over a non-empty alphabet in which nothing matches:
its attempts carry the numeral sequence. -/
theorem runBruteforce_exhausted (env : Env) (algorithm targetHex charset : JsString)
    (m M fuel : Nat)
    (hK : 0 < (distinctFirstSeen charset).length) (hm : 1 ≤ m)
    (hfuel : (distinctFirstSeen charset).length ^ M ≤ fuel)
    (hcancel : ∀ k, env.cancelRequested k = false)
    (hq : ∀ c ∈ numeralSequence (distinctFirstSeen charset) m M,
      ∃ h, digestStringHex env algorithm c = .ok h ∧ h ≠ targetHex) :
    ∃ run, runBruteforce fuel env algorithm targetHex charset m M = some run
      ∧ (attemptsOf run.events).map Prod.fst
          = numeralSequence (distinctFirstSeen charset) m M := by
  have hf : (max 1 (characters charset).length) ^ M ≤ fuel := by
    rw [characters_eq, max_eq_right hK]; exact hfuel
  refine ⟨_, runBruteforce_eq_search fuel env algorithm targetHex charset m M hf, ?_⟩
  rw [enumeration_eq_numeralSequence charset m M hK hm]
  exact attemptsOf_search_exhausted env algorithm targetHex 1000 _ (fun j _ => hcancel j) hq

theorem distinctFirstSeen_pos (charset : JsString) (h : charset ≠ []) :
    0 < (distinctFirstSeen charset).length := by
  cases charset with
  | nil => exact absurd rfl h
  | cons c cs => simp [distinctFirstSeen]

/-- The digit at position `i` of a numeral, counted from the left, is the
base-`K` digit of weight `K ^ (L - 1 - i)`. -/
theorem numeral_getD (K L : Nat) : ∀ (j i : Nat), i < L →
    (numeral K L j).getD i 0 = j / K ^ (L - 1 - i) % K := by
  induction L with
  | zero => intro j i hi; omega
  | succ L ih =>
    intro j i hi
    simp only [numeral]
    by_cases hL : i < L
    · rw [List.getD_append _ _ _ _ (by rw [length_numeral]; exact hL), ih _ _ hL,
        Nat.div_div_eq_div_mul, ← Nat.pow_succ']
      congr 3
      omega
    · have hiL : i = L := by omega
      subst hiL
      rw [List.getD_append_right _ _ _ _ (by rw [length_numeral])]
      simp [length_numeral]

theorem foldl_estimate (f : Nat → Nat) (l : List Nat) : ∀ acc : Nat,
    acc + (l.map f).sum ≤ 2 ^ 53 →
    l.foldl (fun total len =>
        match total with
        | none => none
        | some t => if t + f len ≤ 2 ^ 53 then some (t + f len) else none) (some acc)
      = some (acc + (l.map f).sum) := by
  induction l with
  | nil => intro acc _; simp
  | cons x xs ih =>
    intro acc h
    simp only [List.map_cons, List.sum_cons] at h
    have hx : acc + f x ≤ 2 ^ 53 := by omega
    simp only [List.foldl_cons, if_pos hx, List.map_cons, List.sum_cons]
    rw [ih (acc + f x) (by omega), Nat.add_assoc]

/-- The planned total is the sum of `K ^ L` with `K` the raw length of the
charset; while it stays within `2 ^ 53` it is the size of the enumerated
space when no character repeats. -/
theorem totalCandidatesPlanned_of_nodup (charset : JsString) (m M : Nat)
    (hnd : charset.Nodup)
    (hsmall : ∑ L ∈ Finset.Icc m M, charset.toFinset.card ^ L ≤ 2 ^ 53) :
    totalCandidatesPlanned charset m M
      = some (∑ L ∈ Finset.Icc m M, charset.toFinset.card ^ L) := by
  rw [List.toFinset_card_of_nodup hnd] at hsmall ⊢
  rw [totalCandidatesPlanned, estimateTotalRange]
  have := foldl_estimate (fun L => charset.length ^ L) (List.range' m (M + 1 - m)) 0
    (by rw [Nat.zero_add]; exact hsmall)
  rw [this, Nat.zero_add]
  rfl

/-! ## Targets that differ only in case -/

theorem toLowerCaseUnit_eq_of_sameLetterUnit (a b : Nat) (h : sameLetterUnit a b) :
    toLowerCaseUnit a = toLowerCaseUnit b := by
  unfold toLowerCaseUnit
  rcases h with h | ⟨h1, h2, h3⟩ | ⟨h1, h2, h3⟩
  · rw [h]
  · subst h3
    rw [if_pos ⟨h1, h2⟩, if_neg (by omega)]
  · subst h3
    rw [if_neg (by omega), if_pos ⟨h1, h2⟩]

theorem toLowerCase_eq_of_differOnlyInCase (t1 t2 : JsString) (h : differOnlyInCase t1 t2) :
    toLowerCase t1 = toLowerCase t2 := by
  unfold differOnlyInCase at h
  induction h with
  | nil => rfl
  | cons hab _ ih =>
    simp only [toLowerCase, List.map_cons] at ih ⊢
    rw [toLowerCaseUnit_eq_of_sameLetterUnit _ _ hab, ih]

theorem normalizeTarget_eq_of_differOnlyInCase (t1 t2 : JsString)
    (h : differOnlyInCase t1 t2) : normalizeTarget t1 = normalizeTarget t2 := by
  simp only [normalizeTarget, ← trim_toLowerCase, toLowerCase_eq_of_differOnlyInCase t1 t2 h]

theorem mem_trim (s : JsString) (u : Nat) (h : u ∈ trim s) : u ∈ s := by
  unfold trim at h
  rw [List.mem_reverse] at h
  have h1 := (List.dropWhile_sublist isWhiteSpace).subset h
  rw [List.mem_reverse] at h1
  exact (List.dropWhile_sublist isWhiteSpace).subset h1

/-- The target as sent is ASCII without upper-case letters when the typed
target is ASCII. -/
theorem normalizeTarget_lowercase (t : JsString) (hascii : ∀ u ∈ t, u < 128) :
    ∀ u ∈ normalizeTarget t, u < 128 ∧ ¬ (65 ≤ u ∧ u ≤ 90) := by
  intro u hu
  simp only [normalizeTarget, toLowerCase, List.mem_map] at hu
  obtain ⟨v, hv, rfl⟩ := hu
  have hv128 := hascii v (mem_trim t v hv)
  unfold toLowerCaseUnit
  by_cases hup : 65 ≤ v ∧ v ≤ 90
  · rw [if_pos hup]; omega
  · rw [if_neg hup]; exact ⟨hv128, hup⟩

theorem terminalsOf_of_found (l : List Event) (b : Nat) (pre : List JsString) (c : JsString)
    (h : l.map Event.eraseRecent = quietTrace b 0 pre ++ [Event.attempt c (pre.length + 1),
      Event.result true (some c) (pre.length + 1)]) :
    terminalsOf l = [Event.result true (some c) (pre.length + 1)] := by
  rw [← terminalsOf_map_eraseRecent, h]
  have := terminalsOf_quietTrace b pre 0
  simp only [terminalsOf, List.filter_append] at this ⊢
  rw [this]; rfl

/-! ## Claims about the runs -/

/-- C1: when cancellation is never requested and the digest never fails, a run
whose candidate sequence contains a candidate with the target digest posts,
for the first such candidate `c` at 1-based position `pre.length + 1`, the
events of the candidates before it, then the attempt for `c` and the result
`found = true, plaintext = c, tried = pre.length + 1`, and nothing after;
its attempts are exactly those of `pre ++ [c]`.  First part: `runDictionary`;
second part: `runBruteforce`, with fuel for the longest length. -/
theorem first_match_is_reported (env : Env) (algorithm targetHex : JsString)
    (hex : JsString → JsString)
    (hcancel : ∀ k, env.cancelRequested k = false)
    (hdigest : ∀ c, digestStringHex env algorithm c = .ok (hex c)) :
    (∀ candidates : List JsString, (∃ c ∈ candidates, hex c = targetHex) →
      ∃ pre c rest, candidates = pre ++ c :: rest ∧ (∀ p ∈ pre, hex p ≠ targetHex)
        ∧ hex c = targetHex
        ∧ (runDictionary env algorithm targetHex candidates).events.map Event.eraseRecent
            = quietTrace 100 0 pre ++ [Event.attempt c (pre.length + 1),
                Event.result true (some c) (pre.length + 1)]
        ∧ attemptsOf (runDictionary env algorithm targetHex candidates).events
            = (pre ++ [c]).enum.map (fun p => (p.2, p.1 + 1))
        ∧ (runDictionary env algorithm targetHex candidates).completion = .returned)
    ∧ (∀ (charset : JsString) (minLength maxLength fuel : Nat),
      (max 1 (characters charset).length) ^ maxLength ≤ fuel →
      (∃ c ∈ enumeration (characters charset) (startLen minLength)
          (maxLength + 1 - startLen minLength), hex c = targetHex) →
      ∃ pre c rest run,
        enumeration (characters charset) (startLen minLength)
            (maxLength + 1 - startLen minLength) = pre ++ c :: rest
        ∧ (∀ p ∈ pre, hex p ≠ targetHex) ∧ hex c = targetHex
        ∧ runBruteforce fuel env algorithm targetHex charset minLength maxLength = some run
        ∧ run.events.map Event.eraseRecent
            = quietTrace 1000 0 pre ++ [Event.attempt c (pre.length + 1),
                Event.result true (some c) (pre.length + 1)]
        ∧ attemptsOf run.events = (pre ++ [c]).enum.map (fun p => (p.2, p.1 + 1))
        ∧ run.completion = .returned) := by
  constructor
  · intro candidates h
    exact search_first_match env algorithm targetHex 100 hex candidates hcancel hdigest h
  · intro charset minLength maxLength fuel hf h
    obtain ⟨pre, c, rest, hxs, hpre, hc, h1, h2, h3⟩ :=
      search_first_match env algorithm targetHex 1000 hex _ hcancel hdigest h
    exact ⟨pre, c, rest, _, hxs, hpre, hc,
      runBruteforce_eq_search fuel env algorithm targetHex charset minLength maxLength hf,
      h1, h2, h3⟩

/-- Witness for C1: the dictionary `x, y, z` with the digest of `y` as target
in the echo environment. -/
theorem first_match_is_reported_witness :
    ∃ pre c rest, [[120], [121], [122]] = pre ++ c :: rest
      ∧ (∀ p ∈ pre, toLowerCase (bufferToHex p) ≠ [55, 57])
      ∧ toLowerCase (bufferToHex c) = [55, 57]
      ∧ (runDictionary echoEnv [] [55, 57] [[120], [121], [122]]).events.map Event.eraseRecent
          = quietTrace 100 0 pre ++ [Event.attempt c (pre.length + 1),
              Event.result true (some c) (pre.length + 1)]
      ∧ attemptsOf (runDictionary echoEnv [] [55, 57] [[120], [121], [122]]).events
          = (pre ++ [c]).enum.map (fun p => (p.2, p.1 + 1))
      ∧ (runDictionary echoEnv [] [55, 57] [[120], [121], [122]]).completion = .returned :=
  (first_match_is_reported echoEnv [] [55, 57] (fun c => toLowerCase (bufferToHex c))
    (fun _ => rfl) (fun _ => rfl)).1 [[120], [121], [122]] ⟨[121], by decide, by decide⟩

/-- C4: a dictionary run over `n` candidates none of which matches, never
cancelled, posts exactly `n` attempts, the `i`-th carrying `candidates[i-1]`
and `tried = i`; apart from progress events these attempts are followed only
by the result `found = false, plaintext = null, tried = n`, and the run returns. -/
theorem runDictionary_exhausted (env : Env) (algorithm targetHex : JsString)
    (candidates : List JsString)
    (hcancel : ∀ k, env.cancelRequested k = false)
    (hq : ∀ c ∈ candidates, ∃ h, digestStringHex env algorithm c = .ok h ∧ h ≠ targetHex) :
    attemptsOf (runDictionary env algorithm targetHex candidates).events
        = candidates.enum.map (fun p => (p.2, p.1 + 1))
      ∧ (runDictionary env algorithm targetHex candidates).events.filter
          (fun e => !e.isProgress)
        = candidates.enum.map (fun p => Event.attempt p.2 (p.1 + 1))
            ++ [Event.result false none candidates.length]
      ∧ (runDictionary env algorithm targetHex candidates).completion = .returned := by
  have hs := search_exhausted env algorithm targetHex 100 candidates
    (fun j _ => hcancel j) hq
  rw [← runDictionary_eq_search] at hs
  refine ⟨?_, ?_, hs.2⟩
  · rw [← attemptsOf_map_eraseRecent, hs.1]
    have := attemptsOf_quietTrace 100 candidates 0
    simp only [attemptsOf, List.filterMap_append] at this ⊢
    simp [this, List.enum]
  · rw [← filter_isProgress_map_eraseRecent, hs.1, List.filter_append,
      filter_isProgress_quietTrace]
    simp [List.enum, Event.isProgress]

/-- Witness for C4: the dictionary `x, y, z` and a target that is nobody's digest. -/
theorem runDictionary_exhausted_witness :
    attemptsOf (runDictionary echoEnv [] [55, 55] [[120], [121], [122]]).events
        = [([120], 1), ([121], 2), ([122], 3)]
      ∧ (runDictionary echoEnv [] [55, 55] [[120], [121], [122]]).events.filter
          (fun e => !e.isProgress)
        = [Event.attempt [120] 1, Event.attempt [121] 2, Event.attempt [122] 3,
            Event.result false none 3]
      ∧ (runDictionary echoEnv [] [55, 55] [[120], [121], [122]]).completion = .returned :=
  runDictionary_exhausted echoEnv [] [55, 55] [[120], [121], [122]] (fun _ => rfl)
    (by
      intro c hc
      simp only [List.mem_cons, List.mem_singleton, List.not_mem_nil, or_false] at hc
      rcases hc with rfl | rfl | rfl <;> exact ⟨_, rfl, by decide⟩)

/-- C7: a dictionary run over `n` candidates none of which matches, never
cancelled, posts after each attempt whose `tried` is a multiple of 100, and
before the next attempt, one progress event with that `tried`, and no other
progress event: the progress events carry 100, 200, ..., 100 * (n / 100). -/
theorem runDictionary_progress_cadence (env : Env) (algorithm targetHex : JsString)
    (candidates : List JsString)
    (hcancel : ∀ k, env.cancelRequested k = false)
    (hq : ∀ c ∈ candidates, ∃ h, digestStringHex env algorithm c = .ok h ∧ h ≠ targetHex) :
    (runDictionary env algorithm targetHex candidates).events.map Event.eraseRecent
        = (candidates.enum.flatMap fun p =>
            Event.attempt p.2 (p.1 + 1) ::
              (if (p.1 + 1) % 100 = 0 then [Event.progress (p.1 + 1) []] else []))
          ++ [Event.result false none candidates.length]
      ∧ progressTriedOf (runDictionary env algorithm targetHex candidates).events
        = (List.range (candidates.length / 100)).map (fun k => 100 * (k + 1)) := by
  have hs := search_exhausted env algorithm targetHex 100 candidates
    (fun j _ => hcancel j) hq
  rw [← runDictionary_eq_search] at hs
  refine ⟨hs.1, ?_⟩
  rw [← progressTriedOf_map_eraseRecent, hs.1]
  have := progressTriedOf_quietTrace 100 candidates 0
  simp only [progressTriedOf, List.filterMap_append] at this ⊢
  rw [this]
  simpa using filter_multiples_of_hundred candidates.length

/-- Witness for C7: 250 candidates give progress events at 100 and 200 only. -/
theorem runDictionary_progress_cadence_witness :
    progressTriedOf (runDictionary echoEnv [] [55, 55] (List.replicate 250 [120])).events
      = [100, 200] :=
  (runDictionary_progress_cadence echoEnv [] [55, 55] (List.replicate 250 [120])
    (fun _ => rfl)
    (by
      intro c hc
      rw [List.eq_of_mem_replicate hc]
      exact ⟨_, rfl, by decide⟩)).2.trans (by rw [List.length_replicate]; decide)

/-- C5 as stated fails: with the cancel flag observed set at the boundary
after the first of three dictionary candidates, the run posts the one attempt
and then returns without posting any terminal event, so there is no
Cancelled outcome (nor any other) to carry a `triedCount`. -/
theorem cancelled_run_has_no_outcome :
    cancelAfterOneEnv.cancelRequested 0 = false
      ∧ cancelAfterOneEnv.cancelRequested 1 = true
      ∧ runDictionary cancelAfterOneEnv [] [55, 55] [[120], [121], [122]]
          = ⟨[Event.attempt [120] 1], .returned⟩
      ∧ (terminalsOf
          (runDictionary cancelAfterOneEnv [] [55, 55] [[120], [121], [122]]).events).length
          ≠ 1 := by
  decide

/-- C5, amended: when the cancel flag is first observed set at boundary `k`,
before the run has matched or exhausted its source, the run posts the events
of the first `k` candidates and nothing else: no result, no error, no
terminal event of any kind; it has posted `k` attempts, fewer than the size
of the candidate space; it returns normally; and it reads no digest beyond
the first `k` candidates (any environment agreeing on those gives the same
run).  First part: `runDictionary`; second part: `runBruteforce`. -/
theorem cancel_stops_without_outcome (env : Env) (algorithm targetHex : JsString) (k : Nat)
    (hbefore : ∀ j, j < k → env.cancelRequested j = false)
    (hat : env.cancelRequested k = true) :
    (∀ candidates : List JsString, k < candidates.length →
      (∀ p ∈ candidates.take k,
        ∃ h, digestStringHex env algorithm p = .ok h ∧ h ≠ targetHex) →
      (runDictionary env algorithm targetHex candidates).events.map Event.eraseRecent
          = quietTrace 100 0 (candidates.take k)
        ∧ terminalsOf (runDictionary env algorithm targetHex candidates).events = []
        ∧ (attemptsOf (runDictionary env algorithm targetHex candidates).events).length = k
        ∧ (attemptsOf (runDictionary env algorithm targetHex candidates).events).length
            < candidates.length
        ∧ (runDictionary env algorithm targetHex candidates).completion = .returned
        ∧ ∀ env' : Env, env'.cancelRequested = env.cancelRequested →
            (∀ p ∈ candidates.take k,
              digestStringHex env' algorithm p = digestStringHex env algorithm p) →
            runDictionary env' algorithm targetHex candidates
              = runDictionary env algorithm targetHex candidates)
    ∧ (∀ (charset : JsString) (minLength maxLength fuel : Nat),
      (max 1 (characters charset).length) ^ maxLength ≤ fuel →
      k < (enumeration (characters charset) (startLen minLength)
            (maxLength + 1 - startLen minLength)).length →
      (∀ p ∈ (enumeration (characters charset) (startLen minLength)
            (maxLength + 1 - startLen minLength)).take k,
        ∃ h, digestStringHex env algorithm p = .ok h ∧ h ≠ targetHex) →
      ∃ run, runBruteforce fuel env algorithm targetHex charset minLength maxLength = some run
        ∧ run.events.map Event.eraseRecent
          = quietTrace 1000 0 ((enumeration (characters charset) (startLen minLength)
              (maxLength + 1 - startLen minLength)).take k)
        ∧ terminalsOf run.events = []
        ∧ (attemptsOf run.events).length = k
        ∧ (attemptsOf run.events).length
            < (enumeration (characters charset) (startLen minLength)
                (maxLength + 1 - startLen minLength)).length
        ∧ run.completion = .returned
        ∧ ∀ env' : Env, env'.cancelRequested = env.cancelRequested →
            (∀ p ∈ (enumeration (characters charset) (startLen minLength)
                (maxLength + 1 - startLen minLength)).take k,
              digestStringHex env' algorithm p = digestStringHex env algorithm p) →
            runBruteforce fuel env' algorithm targetHex charset minLength maxLength
              = some run) := by
  constructor
  · intro candidates hk hq
    obtain ⟨h1, h2, h3, h4, h5⟩ :=
      search_cancel_silent env algorithm targetHex 100 candidates k hk hbefore hat hq
    exact ⟨h1, h2, h3, h3.trans_lt hk, h4, h5⟩
  · intro charset minLength maxLength fuel hf hk hq
    obtain ⟨h1, h2, h3, h4, h5⟩ :=
      search_cancel_silent env algorithm targetHex 1000 _ k hk hbefore hat hq
    refine ⟨_, runBruteforce_eq_search fuel env algorithm targetHex charset minLength
      maxLength hf, h1, h2, h3, h3.trans_lt hk, h4, ?_⟩
    intro env' hcancel hdig
    rw [runBruteforce_eq_search fuel env' algorithm targetHex charset minLength maxLength hf,
      h5 env' hcancel hdig]

/-- Witness for C5 (amended): the dictionary `x, y, z`, cancelled at the
boundary after the first candidate. -/
theorem cancel_stops_without_outcome_witness :
    (runDictionary cancelAfterOneEnv [] [55, 55] [[120], [121], [122]]).events.map
          Event.eraseRecent
        = quietTrace 100 0 [[120]]
      ∧ terminalsOf (runDictionary cancelAfterOneEnv [] [55, 55] [[120], [121], [122]]).events
          = []
      ∧ (attemptsOf
          (runDictionary cancelAfterOneEnv [] [55, 55] [[120], [121], [122]]).events).length = 1
      ∧ (runDictionary cancelAfterOneEnv [] [55, 55] [[120], [121], [122]]).completion
          = .returned := by
  have h := (cancel_stops_without_outcome cancelAfterOneEnv [] [55, 55] 1
    (by intro j hj; have : j = 0 := by omega
        subst this; rfl) rfl).1
    [[120], [121], [122]] (by decide)
    (by
      intro p hp
      simp only [List.take, List.mem_singleton] at hp
      subst hp
      exact ⟨_, rfl, by decide⟩)
  exact ⟨h.1, h.2.1, h.2.2.1, h.2.2.2.2.1⟩

/-- C8: when the digest rejects on the candidate after `pre` (no earlier
match, no cancellation), the handler posts the events of `pre` (so
`pre.length` attempts), then one error message built from the failure
(`err.message`, or `String(err)` when that is empty), posts no result, and
itself returns normally.  First part: `start-dictionary`; second part:
`start-bruteforce`; third part: the text is `err.message` when non-empty. -/
theorem digest_failure_is_reported (env : Env) (algorithm targetHash : JsString)
    (pre : List JsString) (c : JsString) (rest : List JsString) (err : JsError)
    (hcancel : ∀ k, env.cancelRequested k = false)
    (hq : ∀ p ∈ pre, ∃ h, digestStringHex env algorithm p = .ok h ∧ h ≠ targetHash)
    (hd : digestStringHex env algorithm c = .error err) :
    (∀ fuel : Nat, ∃ run,
      onmessage fuel env (.startDictionary algorithm targetHash (pre ++ c :: rest)) = some run
        ∧ run.events.map Event.eraseRecent
          = quietTrace 100 0 pre ++ [Event.error (errorText err)]
        ∧ (attemptsOf run.events).length = pre.length
        ∧ terminalsOf run.events = [Event.error (errorText err)]
        ∧ run.completion = .returned)
    ∧ (∀ (charset : JsString) (minLength maxLength fuel : Nat),
      (max 1 (characters charset).length) ^ maxLength ≤ fuel →
      enumeration (characters charset) (startLen minLength)
          (maxLength + 1 - startLen minLength) = pre ++ c :: rest →
      ∃ run,
        onmessage fuel env (.startBruteforce algorithm targetHash charset minLength maxLength)
            = some run
        ∧ run.events.map Event.eraseRecent
          = quietTrace 1000 0 pre ++ [Event.error (errorText err)]
        ∧ (attemptsOf run.events).length = pre.length
        ∧ terminalsOf run.events = [Event.error (errorText err)]
        ∧ run.completion = .returned)
    ∧ (err.message ≠ [] → errorText err = err.message) := by
  refine ⟨?_, ?_, ?_⟩
  · intro fuel
    have hs := search_threw env algorithm targetHash 100 pre c rest err
      (fun j _ => hcancel j) hq hd
    exact ⟨_, rfl, catchError_threw _ 100 pre err hs.1 hs.2⟩
  · intro charset minLength maxLength fuel hf henum
    have hs := search_threw env algorithm targetHash 1000 pre c rest err
      (fun j _ => hcancel j) hq hd
    rw [← henum] at hs
    have hrun := runBruteforce_eq_search fuel env algorithm targetHash charset
      (if minLength = 0 then 1 else minLength) maxLength hf
    rw [startLen_orOne] at hrun
    refine ⟨_, ?_, catchError_threw _ 1000 pre err hs.1 hs.2⟩
    simp only [onmessage, hrun, Option.map_some']
  · intro h
    simp [errorText, h]

/-- Witness for C8: a dictionary run with the algorithm `MD5`, which the
digest primitive rejects on the first candidate. -/
theorem digest_failure_is_reported_witness :
    ∃ run,
      onmessage 0 noMd5Env (.startDictionary (units "MD5") [55, 55] [[120], [121]]) = some run
        ∧ run.events.map Event.eraseRecent
          = quietTrace 100 0 [] ++ [Event.error (units "Unrecognized name")]
        ∧ (attemptsOf run.events).length = 0
        ∧ terminalsOf run.events = [Event.error (units "Unrecognized name")]
        ∧ run.completion = .returned :=
  (digest_failure_is_reported noMd5Env (units "MD5") [55, 55] [] [120] [[121]]
    ⟨units "Unrecognized name", units "NotSupportedError: Unrecognized name"⟩
    (fun _ => rfl) (by simp) rfl).1 0

/-- C6 as stated fails: the loops compare the lower-case digest with the
target by exact equality.  The candidate with digest `ab` is found for the
target `ab` and not found for the target `AB`, in both runs. -/
theorem exact_comparison_is_case_sensitive :
    toLowerCase [65, 66] = toLowerCase [97, 98]
      ∧ digestStringHex echoEnv [] [171] = .ok (toLowerCase [65, 66])
      ∧ runDictionary echoEnv [] [97, 98] [[171]]
          = ⟨[Event.attempt [171] 1, Event.result true (some [171]) 1], .returned⟩
      ∧ runDictionary echoEnv [] [65, 66] [[171]]
          = ⟨[Event.attempt [171] 1, Event.result false none 1], .returned⟩
      ∧ runBruteforce 1 echoEnv [] [97, 98] [171] 1 1
          = some ⟨[Event.attempt [171] 1, Event.result true (some [171]) 1], .returned⟩
      ∧ runBruteforce 1 echoEnv [] [65, 66] [171] 1 1
          = some ⟨[Event.attempt [171] 1, Event.result false none 1], .returned⟩ :=
  ⟨by decide, rfl, by decide, by decide, by decide, by decide⟩

/-- C6, amended: the case-insensitivity lies in the start handler of
`app.js`, which trims and lower-cases the target before sending it.  For an
ASCII target `t1` and a target `t2` that differs from it only in the case of
letters (so `t2` is ASCII too), the targets as sent are equal and free of
upper-case letters, so `runDictionary` and `runBruteforce` behave identically
for both; and a candidate whose digest is the target as sent for `t2` (the
lower-cased target) is reported as found, first among the candidates, by
`runDictionary` and by `runBruteforce` when the target was typed as `t1`. -/
theorem normalized_target_is_case_insensitive (env : Env) (algorithm t1 t2 : JsString)
    (hascii : ∀ u ∈ t1, u < 128)
    (hcase : differOnlyInCase t1 t2) :
    normalizeTarget t1 = normalizeTarget t2
      ∧ (∀ u ∈ normalizeTarget t1, u < 128 ∧ ¬ (65 ≤ u ∧ u ≤ 90))
      ∧ (∀ candidates : List JsString,
          runDictionary env algorithm (normalizeTarget t1) candidates
            = runDictionary env algorithm (normalizeTarget t2) candidates)
      ∧ (∀ (fuel : Nat) (charset : JsString) (minLength maxLength : Nat),
          runBruteforce fuel env algorithm (normalizeTarget t1) charset minLength maxLength
            = runBruteforce fuel env algorithm (normalizeTarget t2) charset minLength maxLength)
      ∧ (∀ (pre : List JsString) (c : JsString) (rest : List JsString),
          (∀ k, env.cancelRequested k = false) →
          (∀ p ∈ pre,
            ∃ h, digestStringHex env algorithm p = .ok h ∧ h ≠ normalizeTarget t2) →
          digestStringHex env algorithm c = .ok (normalizeTarget t2) →
          (runDictionary env algorithm (normalizeTarget t1)
              (pre ++ c :: rest)).events.map Event.eraseRecent
            = quietTrace 100 0 pre ++ [Event.attempt c (pre.length + 1),
                Event.result true (some c) (pre.length + 1)]
          ∧ terminalsOf
              (runDictionary env algorithm (normalizeTarget t1) (pre ++ c :: rest)).events
            = [Event.result true (some c) (pre.length + 1)])
      ∧ (∀ (charset : JsString) (minLength maxLength fuel : Nat)
          (pre : List JsString) (c : JsString) (rest : List JsString),
          (max 1 (characters charset).length) ^ maxLength ≤ fuel →
          enumeration (characters charset) (startLen minLength)
              (maxLength + 1 - startLen minLength) = pre ++ c :: rest →
          (∀ k, env.cancelRequested k = false) →
          (∀ p ∈ pre,
            ∃ h, digestStringHex env algorithm p = .ok h ∧ h ≠ normalizeTarget t2) →
          digestStringHex env algorithm c = .ok (normalizeTarget t2) →
          ∃ run,
            runBruteforce fuel env algorithm (normalizeTarget t1) charset minLength maxLength
                = some run
            ∧ run.events.map Event.eraseRecent
              = quietTrace 1000 0 pre ++ [Event.attempt c (pre.length + 1),
                  Event.result true (some c) (pre.length + 1)]
            ∧ terminalsOf run.events = [Event.result true (some c) (pre.length + 1)]) := by
  have hnorm : normalizeTarget t1 = normalizeTarget t2 :=
    normalizeTarget_eq_of_differOnlyInCase t1 t2 hcase
  refine ⟨hnorm, normalizeTarget_lowercase t1 hascii, fun _ => by rw [hnorm],
    fun _ _ _ _ => by rw [hnorm], ?_, ?_⟩
  · intro pre c rest hcancel hq hd
    rw [hnorm]
    have hs := search_found env algorithm (normalizeTarget t2) 100 pre c rest
      (fun j _ => hcancel j) hq hd
    rw [← runDictionary_eq_search] at hs
    exact ⟨hs.1, terminalsOf_of_found _ 100 pre c hs.1⟩
  · intro charset minLength maxLength fuel pre c rest hf henum hcancel hq hd
    rw [hnorm]
    have hs := search_found env algorithm (normalizeTarget t2) 1000 pre c rest
      (fun j _ => hcancel j) hq hd
    rw [← henum] at hs
    exact ⟨_, runBruteforce_eq_search fuel env algorithm _ charset minLength maxLength hf,
      hs.1, terminalsOf_of_found _ 1000 pre c hs.1⟩

/-- Witness for C6 (amended): the typed targets ` AB` and ` ab` (with a
leading blank), and the candidate whose digest is `ab`. -/
theorem normalized_target_is_case_insensitive_witness :
    normalizeTarget (units " AB") = normalizeTarget (units " ab")
      ∧ normalizeTarget (units " AB") = units "ab"
      ∧ runDictionary echoEnv [] (normalizeTarget (units " AB")) [[171]]
          = runDictionary echoEnv [] (normalizeTarget (units " ab")) [[171]]
      ∧ terminalsOf (runDictionary echoEnv [] (normalizeTarget (units " AB")) [[171]]).events
          = [Event.result true (some [171]) 1]
      ∧ (∃ run, runBruteforce 1 echoEnv [] (normalizeTarget (units " AB")) [171] 1 1 = some run
          ∧ terminalsOf run.events = [Event.result true (some [171]) 1]) := by
  have h := normalized_target_is_case_insensitive echoEnv [] (units " AB") (units " ab")
    (by decide)
    (List.Forall₂.cons (Or.inl rfl)
      (List.Forall₂.cons (Or.inr (Or.inl ⟨by decide, by decide, rfl⟩))
        (List.Forall₂.cons (Or.inr (Or.inl ⟨by decide, by decide, rfl⟩)) List.Forall₂.nil)))
  obtain ⟨run, hrun, _, hterm⟩ := h.2.2.2.2.2 [171] 1 1 1 [] [171] [] (by decide) (by decide)
    (fun _ => rfl) (by simp) rfl
  exact ⟨h.1, by decide, h.2.2.1 [[171]],
    (h.2.2.2.2.1 [] [171] [] (fun _ => rfl) (by simp) rfl).2, run, hrun, hterm⟩

/-- C9 as stated fails: over the alphabet `ab` with lengths 1 to 2 the run
visits `a, b, aa, ab, ba`, so the target `digest("ba")` is found with
`tried = 5`, and no result with `tried = 3` is posted. -/
theorem bruteforce_ba_is_not_third :
    digestStringHex echoEnv [] (units "ba") = .ok (units "6261")
      ∧ runBruteforce 4 echoEnv [] (units "6261") (units "ab") 1 2
          = some ⟨[Event.attempt (units "a") 1, Event.attempt (units "b") 2,
              Event.attempt (units "aa") 3, Event.attempt (units "ab") 4,
              Event.attempt (units "ba") 5, Event.result true (some (units "ba")) 5],
              .returned⟩
      ∧ (∀ run, runBruteforce 4 echoEnv [] (units "6261") (units "ab") 1 2 = some run →
          Event.result true (some (units "ba")) 3 ∉ run.events) := by
  refine ⟨rfl, by decide, ?_⟩
  intro run hrun
  have h : runBruteforce 4 echoEnv [] (units "6261") (units "ab") 1 2
      = some ⟨[Event.attempt (units "a") 1, Event.attempt (units "b") 2,
          Event.attempt (units "aa") 3, Event.attempt (units "ab") 4,
          Event.attempt (units "ba") 5, Event.result true (some (units "ba")) 5],
          .returned⟩ := by decide
  rw [h] at hrun
  cases hrun
  decide

/-- C9, amended: for the alphabet `ab`, lengths 1 to 2, a digest that is
injective on `a, b, aa, ab, ba, bb`, the target `digest("ba")` and no
cancellation, `runBruteforce` posts the attempts `a, b, aa, ab, ba` and then
the result `found = true, plaintext = "ba", tried = 5`. -/
theorem bruteforce_ba_is_fifth (env : Env) (algorithm : JsString) (hex : JsString → JsString)
    (fuel : Nat) (hfuel : 4 ≤ fuel)
    (hcancel : ∀ k, env.cancelRequested k = false)
    (hdigest : ∀ c ∈ [units "a", units "b", units "aa", units "ab", units "ba", units "bb"],
      digestStringHex env algorithm c = .ok (hex c))
    (hinj : ∀ c ∈ [units "a", units "b", units "aa", units "ab", units "ba", units "bb"],
      ∀ d ∈ [units "a", units "b", units "aa", units "ab", units "ba", units "bb"],
      hex c = hex d → c = d) :
    runBruteforce fuel env algorithm (hex (units "ba")) (units "ab") 1 2
      = some ⟨[Event.attempt (units "a") 1, Event.attempt (units "b") 2,
          Event.attempt (units "aa") 3, Event.attempt (units "ab") 4,
          Event.attempt (units "ba") 5, Event.result true (some (units "ba")) 5],
          .returned⟩ := by
  have hne : ∀ c ∈ [units "a", units "b", units "aa", units "ab"],
      hex c ≠ hex (units "ba") := by
    intro c hc heq
    have hmem : c ∈ [units "a", units "b", units "aa", units "ab", units "ba", units "bb"] := by
      simp only [List.mem_cons, List.mem_singleton, List.not_mem_nil, or_false] at hc ⊢
      tauto
    have := hinj c hmem (units "ba") (by decide) heq
    subst this
    revert hc
    decide
  have henum : enumeration (characters (units "ab")) (startLen 1) (2 + 1 - startLen 1)
      = [units "a", units "b", units "aa", units "ab", units "ba", units "bb"] := by decide
  rw [runBruteforce_eq_search fuel env algorithm _ (units "ab") 1 2
    (le_trans (by decide) hfuel), henum]
  have ha := hdigest (units "a") (by decide)
  have hb := hdigest (units "b") (by decide)
  have haa := hdigest (units "aa") (by decide)
  have hab := hdigest (units "ab") (by decide)
  have hba := hdigest (units "ba") (by decide)
  have na := hne (units "a") (by decide)
  have nb := hne (units "b") (by decide)
  have naa := hne (units "aa") (by decide)
  have nab := hne (units "ab") (by decide)
  simp [search, candidateLoop, attemptBody, finish, hcancel, ha, hb, haa, hab, hba,
    na, nb, naa, nab, trackRecent]

/-- Witness for C9 (amended): the echo environment, whose digest is injective. -/
theorem bruteforce_ba_is_fifth_witness :
    runBruteforce 4 echoEnv [] (toLowerCase (bufferToHex (units "ba"))) (units "ab") 1 2
      = some ⟨[Event.attempt (units "a") 1, Event.attempt (units "b") 2,
          Event.attempt (units "aa") 3, Event.attempt (units "ab") 4,
          Event.attempt (units "ba") 5, Event.result true (some (units "ba")) 5],
          .returned⟩ :=
  bruteforce_ba_is_fifth echoEnv [] (fun c => toLowerCase (bufferToHex c)) 4 (by decide)
    (fun _ => rfl) (fun _ _ => rfl) (by decide)

/-- C10 fails on the code for a charset with a repeated character: for the
charset `aa` and lengths 1 to 1 the start handler plans
`estimateTotalRange(2, 1, 1) = 2` candidates, while `runBruteforce`, which
removes the duplicate, attempts the single candidate `a`. -/
theorem estimate_counts_repeated_characters :
    totalCandidatesPlanned (units "aa") 1 1 = some 2
      ∧ (characters (units "aa")).length = 1
      ∧ (∑ L ∈ Finset.Icc 1 1, (characters (units "aa")).length ^ L) = 1
      ∧ runBruteforce 1 echoEnv [] (units "ff") (units "aa") 1 1
          = some ⟨[Event.attempt (units "a") 1, Event.result false none 1], .returned⟩ := by
  decide

/-- C2 as stated fails for the empty charset: with `K = 0` the sum of `K ^ L`
over `L = 1, 2` is 0, yet the run posts two attempts, one per length, both
carrying the empty candidate. -/
theorem empty_charset_repeats_empty_candidate :
    digestStringHex constEnv [] [] = .ok (units "ab")
      ∧ runBruteforce 1 constEnv [] (units "cd") [] 1 2
          = some ⟨[Event.attempt [] 1, Event.attempt [] 2, Event.result false none 2],
              .returned⟩
      ∧ (∑ L ∈ Finset.Icc 1 2, ([] : JsString).toFinset.card ^ L) = 0 :=
  ⟨rfl, by decide, by decide⟩

/-- C2, amended: for every non-empty charset and all `1 ≤ m ≤ M`, when no
candidate's digest equals the target and cancellation is never requested,
`runBruteforce` posts exactly the sum over `L` from `m` to `M` of `K ^ L`
attempts, `K` being the number of distinct characters of the charset, and no
two attempts carry the same candidate. -/
theorem bruteforce_attempt_count (env : Env) (algorithm targetHex charset : JsString)
    (m M fuel : Nat)
    (hne : charset ≠ []) (hm : 1 ≤ m) (_hM : m ≤ M)
    (hfuel : charset.toFinset.card ^ M ≤ fuel)
    (hcancel : ∀ k, env.cancelRequested k = false)
    (hq : ∀ c ∈ numeralSequence (distinctFirstSeen charset) m M,
      ∃ h, digestStringHex env algorithm c = .ok h ∧ h ≠ targetHex) :
    ∃ run, runBruteforce fuel env algorithm targetHex charset m M = some run
      ∧ (attemptsOf run.events).length = ∑ L ∈ Finset.Icc m M, charset.toFinset.card ^ L
      ∧ ((attemptsOf run.events).map Prod.fst).Nodup := by
  have hK := distinctFirstSeen_pos charset hne
  have hcard := length_distinctFirstSeen charset
  obtain ⟨run, hrun, hatt⟩ := runBruteforce_exhausted env algorithm targetHex charset m M fuel
    hK hm (by rw [hcard]; exact hfuel) hcancel hq
  have henum := enumeration_eq_numeralSequence charset m M hK hm
  refine ⟨run, hrun, ?_, ?_⟩
  · have hlen := congrArg List.length hatt
    rw [List.length_map] at hlen
    rw [hlen, ← henum, length_enumeration _ (by rw [characters_eq]; exact hK),
      startLen_of_pos m hm, characters_eq, hcard]
    rfl
  · rw [hatt, ← henum]
    exact nodup_enumeration _ (by rw [characters_eq]; exact hK)
      (by rw [characters_eq]; exact nodup_distinctFirstSeen charset) _ _

/-- Witness for C2 (amended): the charset `aba` (two distinct characters),
lengths 1 to 2: six attempts. -/
theorem bruteforce_attempt_count_witness :
    ∃ run, runBruteforce 4 constEnv [] (units "cd") (units "aba") 1 2 = some run
      ∧ (attemptsOf run.events).length = 6
      ∧ ((attemptsOf run.events).map Prod.fst).Nodup := by
  obtain ⟨run, h1, h2, h3⟩ := bruteforce_attempt_count constEnv [] (units "cd") (units "aba")
    1 2 4 (by decide) (by decide) (by decide) (by decide) (fun _ => rfl)
    (fun _ _ => ⟨_, rfl, by decide⟩)
  exact ⟨run, h1, h2.trans (by decide), h3⟩

/-- C3: for a charset whose distinct characters in first-seen order are
`c_0, ..., c_{K-1}` with `K ≥ 1`, and `1 ≤ m ≤ M`, when nothing matches and
cancellation is never requested, the candidates attempted by `runBruteforce`
are, for `L = m, ..., M` in ascending order, the `K ^ L` strings `s_{L,j}`,
`j = 0, ..., K ^ L - 1`, where `s_{L,j}` is the `L`-digit base-`K` numeral of
`j`, most significant digit first, with digit `d` written as `c_d`. -/
theorem bruteforce_visits_numerals (env : Env) (algorithm targetHex charset : JsString)
    (m M fuel : Nat)
    (hK : 1 ≤ (distinctFirstSeen charset).length) (hm : 1 ≤ m) (_hM : m ≤ M)
    (hfuel : (distinctFirstSeen charset).length ^ M ≤ fuel)
    (hcancel : ∀ k, env.cancelRequested k = false)
    (hq : ∀ c ∈ numeralSequence (distinctFirstSeen charset) m M,
      ∃ h, digestStringHex env algorithm c = .ok h ∧ h ≠ targetHex) :
    ∃ run, runBruteforce fuel env algorithm targetHex charset m M = some run
      ∧ (attemptsOf run.events).map Prod.fst
          = (List.range' m (M + 1 - m)).flatMap fun L =>
              (List.range ((distinctFirstSeen charset).length ^ L)).map fun j =>
                (numeral (distinctFirstSeen charset).length L j).map fun d =>
                  (distinctFirstSeen charset).getD d 0 :=
  runBruteforce_exhausted env algorithm targetHex charset m M fuel hK hm hfuel hcancel hq

/-- Witness for C3: the charset `aba`, lengths 1 to 2, visits
`a, b, aa, ab, ba, bb`. -/
theorem bruteforce_visits_numerals_witness :
    ∃ run, runBruteforce 4 constEnv [] (units "cd") (units "aba") 1 2 = some run
      ∧ (attemptsOf run.events).map Prod.fst
          = [units "a", units "b", units "aa", units "ab", units "ba", units "bb"] := by
  obtain ⟨run, h1, h2⟩ := bruteforce_visits_numerals constEnv [] (units "cd") (units "aba")
    1 2 4 (by decide) (by decide) (by decide) (by decide) (fun _ => rfl)
    (fun _ _ => ⟨_, rfl, by decide⟩)
  exact ⟨run, h1, h2.trans (by decide)⟩

end FancyCrack
